import Mathlib

/-!
Verification of the walkability-optimization core
(`src/network/shortest_paths.py`, `src/scoring/walkscore.py`,
`src/algorithms/greedy.py`) against its natural-language specification.

The Python code is shallowly embedded over exact rational arithmetic:
  * the materialized distance dictionary `ShortestPathCalculator.distance_matrix`
    becomes a partial map `NodeId → NodeId → Option ℚ`;
  * Python sets of node ids become `Finset ℤ` (iteration order is immaterial in
    every use below: folds with `min` and sorting are order independent);
  * Python dicts used as finite keyed tables become association lists or
    `Option`-valued functions;
  * `list.sort()` on distances becomes `List.insertionSort (· ≤ ·)` (any sorting
    algorithm yields the same sorted list of rationals).
-/

namespace Walkability

abbrev NodeId := ℤ

/-- Partial map modelling `ShortestPathCalculator.distance_matrix`
(a dict keyed by `(from_node, to_node)`). -/
abbrev DistMatrix := NodeId → NodeId → Option ℚ

/-- An allocation set `allocated_amenities : {amenity_type: set of node ids}`;
a category absent from the dict behaves as the empty set. -/
abbrev Alloc := String → Finset NodeId

/-- Empty allocation set (`allocated_amenities = {}`). -/
def emptyAlloc : Alloc := fun _ => ∅

/-- `ShortestPathCalculator.D_infinity = 2400.0` (shortest_paths.py line 52). -/
def D_infinity : ℚ := 2400

/-- `ShortestPathCalculator.get_distance` (shortest_paths.py lines 269-271):
`self.distance_matrix.get((from_node, to_node), self.D_infinity)`. -/
def get_distance (m : DistMatrix) (u v : NodeId) : ℚ :=
  (m u v).getD D_infinity

/-- Distances from resident `r` to every element of a location set, as read off
the matrix while iterating the Python set `all_locations` (enumerated here in
ascending node-id order; every use below is order independent). -/
def locDistances (m : DistMatrix) (r : NodeId) (A : Finset NodeId) : List ℚ :=
  (A.sort (· ≤ ·)).map (get_distance m r)

/-- Plain-category contribution (walkscore.py lines 124-143): the running
minimum is initialized with `D_infinity` before folding over the set, and the
whole category contributes `weight * D_infinity` when no location exists. -/
def plainContribution (m : DistMatrix) (r : NodeId) (w : ℚ) (A : Finset NodeId) : ℚ :=
  if A.Nonempty then w * ((locDistances m r A).foldl min D_infinity)
  else w * D_infinity

/-- `Σ (wap * Di,a^p)` over ranks `p = 1..r` (walkscore.py lines 177-190):
rank weights are consumed in order, rank distances come from the sorted list,
and a rank beyond the list length is padded with `D_infinity`. -/
def depthRankSum : List ℚ → List ℚ → ℚ
  | [], _ => 0
  | w :: ws, [] => w * D_infinity + depthRankSum ws []
  | w :: ws, d :: ds => w * d + depthRankSum ws (ds)

/-- Depth-category contribution (walkscore.py lines 159-198): with locations
the sorted raw distances feed `depthRankSum`; with none, the code adds
`sum(depth_weights.values()) * D_infinity`. -/
def depthContribution (m : DistMatrix) (r : NodeId) (catW : ℚ) (ws : List ℚ)
    (A : Finset NodeId) : ℚ :=
  if A.Nonempty then
    catW * depthRankSum ws ((locDistances m r A).insertionSort (· ≤ ·))
  else catW * (ws.sum * D_infinity)

/-- The state a `WalkScoreCalculator` reads: the two weight tables loaded by
`_load_amenity_weights`, the `amenity_types.weight` lookup used for depth
category weights (walkscore.py lines 150-157), the existing-amenity sets
`graph.get_all_amenity_locations`, the distance matrix and the PWL
configuration. Depth rank weights are the vector `w_1..w_r` keyed by the
contiguous ranks `1..r` the loader produces (`ORDER BY choice_rank`). -/
structure Scorer where
  plain_weights : List (String × ℚ)
  depth_weights : List (String × List ℚ)
  type_weight : String → Option ℚ
  L : String → Finset NodeId
  matrix : DistMatrix
  breakpoints : List ℚ
  scores : List ℚ

/-- `WalkScoreCalculator.compute_weighted_distance` (walkscore.py lines
94-200): plain categories accumulate `w * min`, depth categories accumulate
`category_weight * Σ (wap * d_p)` where a missing `amenity_types.weight` row
silently defaults to `0.6` (line 157).  No normalization is applied. -/
def compute_weighted_distance (sc : Scorer) (r : NodeId) (S : Alloc) : ℚ :=
  (sc.plain_weights.map (fun pw =>
      plainContribution sc.matrix r pw.2 (sc.L pw.1 ∪ S pw.1))).sum
  + (sc.depth_weights.map (fun dw =>
      depthContribution sc.matrix r ((sc.type_weight dw.1).getD (3/5)) dw.2
        (sc.L dw.1 ∪ S dw.1))).sum

/-- The segment scan of `piecewise_linear_score` (walkscore.py lines 78-89):
the first segment `[x_i, x_{i+1}]` containing the clamped distance wins; the
interpolated value is clamped into `[0, 100]`, while a degenerate segment
(`x2 == x1`) returns `y1` unclamped. -/
def pwlSegments : List ℚ → List ℚ → ℚ → Option ℚ
  | x1 :: x2 :: xs, y1 :: y2 :: ys, d =>
    if x1 ≤ d ∧ d ≤ x2 then
      some (if x2 = x1 then y1 else max 0 (min 100 (y1 + (y2 - y1) * (d - x1) / (x2 - x1))))
    else pwlSegments (x2 :: xs) (y2 :: ys) d
  | _, _, _ => none

/-- `WalkScoreCalculator.piecewise_linear_score` (walkscore.py lines 64-92):
the distance is first clamped to `[0, breakpoints[-1]]` (the lower clamp is the
constant `0`, not the first breakpoint), and if no segment contains the clamped
distance the function falls through to `scores[-1]`. -/
def piecewise_linear_score (bps ys : List ℚ) (dist : ℚ) : ℚ :=
  let d := max 0 (min dist (bps.getLastD 0))
  (pwlSegments bps ys d).getD (ys.getLastD 0)

/-- `WalkScoreCalculator.compute_walkscore` (walkscore.py lines 202-215). -/
def compute_walkscore (sc : Scorer) (r : NodeId) (S : Alloc) : ℚ :=
  piecewise_linear_score sc.breakpoints sc.scores (compute_weighted_distance sc r S)

/-! ### The greedy allocator (`src/algorithms/greedy.py`) -/

/-- The data a `GreedyOptimizer` reads: its scorer, the building list
`graph.residential_buildings` of `(building_id, snapped_node_id)` pairs, and
the residential node set `graph.N` (enumerated in its Python iteration
order). -/
structure Greedy where
  sc : Scorer
  residential_buildings : List (ℤ × NodeId)
  N : List NodeId

/-- `GreedyOptimizer._precompute_nearby_residentials` (greedy.py lines
384-414): the residential nodes whose looked-up distance to the candidate is
at most `3000.0` metres. -/
def nearby_residentials (g : Greedy) (j : NodeId) : List NodeId :=
  g.N.filter (fun r => get_distance g.sc.matrix r j ≤ 3000)

/-- `new_S`: copy the allocation dict and add `j` to category `t`
(greedy.py lines 313-319, and the commit at lines 220-221). -/
def allocAdd (S : Alloc) (t : String) (j : NodeId) : Alloc :=
  fun u => if u = t then insert j (S t) else S u

/-- `GreedyOptimizer._calculate_objective` (greedy.py lines 445-470): the
average WalkScore over all residential buildings (each building scored at its
snapped node), `0.0` when the building list is empty. -/
def calculate_objective (g : Greedy) (S : Alloc) : ℚ :=
  if g.residential_buildings.isEmpty then 0
  else
    (g.residential_buildings.map (fun b => compute_walkscore g.sc b.2 S)).sum
      / g.residential_buildings.length

/-- `GreedyOptimizer._calculate_objective_increase` (greedy.py lines 287-347).
On entry the method guarantees `walkscore_cache` holds `score(u, S)` for every
node of `graph.N` (`_is_cache_valid` / `_rebuild_cache`, lines 301-303); the
cached `old_score` is therefore embedded as `compute_walkscore g.sc b.2 S`.
Buildings snapped to a node in the precomputed neighborhood of `j` contribute
their score change; the total is divided by the count of all buildings. -/
def calculate_objective_increase (g : Greedy) (S : Alloc) (t : String) (j : NodeId) : ℚ :=
  let affected := nearby_residentials g j
  if affected.isEmpty then 0
  else
    let newS := allocAdd S t j
    let total := ((g.residential_buildings.filter (fun b => b.2 ∈ affected)).map
        (fun b => compute_walkscore g.sc b.2 newS - compute_walkscore g.sc b.2 S)).sum
    if 0 < g.residential_buildings.length then
      total / g.residential_buildings.length
    else 0

/-- The mutable state of `GreedyOptimizer.optimize` (greedy.py lines 115-135):
the solution dict `S`, the per-type counters `n_allocated`, and the remaining
`candidate_capacities`. -/
structure OptState where
  S : Alloc
  n_allocated : String → ℕ
  caps : NodeId → ℤ

/-- `available_candidates` (greedy.py lines 152-155): candidates with
remaining capacity, in the enumeration order of the capacity dict (which is
the enumeration order of the Python set `graph.M`). -/
def availableCandidates (M : List NodeId) (caps : NodeId → ℤ) : List NodeId :=
  M.filter (fun j => 0 < caps j)

/-- The `(a_type, candidate)` pairs scanned in one iteration (greedy.py lines
175-191): types still below `k`, in `amenity_types` order, each paired with
every available candidate. -/
def candidatePairs (types : List String) (k : ℕ) (n : String → ℕ)
    (avail : List NodeId) : List (String × NodeId) :=
  (types.filter (fun t => n t < k)).flatMap (fun t => avail.map (fun j => (t, j)))

/-- The strict-improvement scan (greedy.py lines 181-191): `best_increase`
starts at `-inf`, so the first evaluated pair always becomes the incumbent and
a later pair replaces it only with a strictly larger increase. -/
def scanBestGo (f : String × NodeId → ℚ) :
    (String × NodeId) × ℚ → List (String × NodeId) → (String × NodeId) × ℚ
  | best, [] => best
  | best, p :: ps =>
    if best.2 < f p then scanBestGo f (p, f p) ps else scanBestGo f best ps

/-- `best_pair` selection over the scanned pair list (greedy.py lines
160-216): `None` exactly when no pair is scanned. -/
def scanBest (f : String × NodeId → ℚ) :
    List (String × NodeId) → Option ((String × NodeId) × ℚ)
  | [] => none
  | p :: ps => some (scanBestGo f (p, f p) ps)

/-- One iteration of the `while True` loop of `optimize` (greedy.py lines
145-231): stop when every type reached `k` or no candidate has capacity or no
pair was scanned; otherwise commit the selected pair (`S[c*] ∪= {j*}`,
`n_{c*} += 1`, `cap_{j*} -= 1`). -/
def greedyStep (g : Greedy) (types : List String) (M : List NodeId) (k : ℕ)
    (st : OptState) : Option OptState :=
  if types.all (fun t => k ≤ st.n_allocated t) then none
  else if (availableCandidates M st.caps).isEmpty then none
  else
    match scanBest (fun p => calculate_objective_increase g st.S p.1 p.2)
        (candidatePairs types k st.n_allocated (availableCandidates M st.caps)) with
    | none => none
    | some (p, _) =>
      some { S := allocAdd st.S p.1 p.2,
             n_allocated := fun t => if t = p.1 then st.n_allocated t + 1 else st.n_allocated t,
             caps := fun j => if j = p.2 then st.caps j - 1 else st.caps j }

/-- The `while True` loop, fuel-indexed: `greedyLoop fuel` runs at most `fuel`
iterations, so its values over all fuels enumerate every intermediate state of
the run (the Python loop always stops: each iteration consumes one unit of
capacity). -/
def greedyLoop (g : Greedy) (types : List String) (M : List NodeId) (k : ℕ) :
    ℕ → OptState → OptState
  | 0, st => st
  | fuel + 1, st =>
    match greedyStep g types M k st with
    | none => st
    | some st' => greedyLoop g types M k fuel st'

/-- The initial state of `optimize` (greedy.py lines 115-135): empty solution,
zero counters, and the capacities loaded for the candidates. -/
def initState (cap0 : NodeId → ℤ) : OptState :=
  { S := emptyAlloc, n_allocated := fun _ => 0, caps := cap0 }

/-- `GreedyOptimizer.optimize` (greedy.py lines 54-285) restricted to its
allocation result: run the loop from the initial state and return `S`. -/
def optimize (g : Greedy) (types : List String) (M : List NodeId) (k : ℕ)
    (cap0 : NodeId → ℤ) (fuel : ℕ) : Alloc :=
  (greedyLoop g types M k fuel (initState cap0)).S

/-! ### The distance fabric construction (`src/network/shortest_paths.py`) -/

/-- Modelled from the spec: `nx.single_source_dijkstra_path_length` is an
external library routine missing from the repository; per §4.1 it returns the
single-source shortest-path lengths of the undirected weighted graph.  It is
embedded as iterated relaxation over the symmetrized edge list (enough passes
compute exactly the shortest-path lengths on the small graphs used below). -/
def alookup (l : List (NodeId × ℚ)) (v : NodeId) : Option ℚ :=
  match l with
  | [] => none
  | q :: qs => if q.1 = v then some q.2 else alookup qs v

/-- Modelled from the spec (continued): one relaxation pass over the
(directed) edge list, improving the tentative distance map. -/
def relaxOnce (edges : List (NodeId × NodeId × ℚ)) (dists : List (NodeId × ℚ)) :
    List (NodeId × ℚ) :=
  edges.foldl (fun acc e =>
    match alookup acc e.1 with
    | none => acc
    | some du =>
      match alookup acc e.2.1 with
      | none => (e.2.1, du + e.2.2) :: acc
      | some dv =>
        if du + e.2.2 < dv then
          (e.2.1, du + e.2.2) :: acc.filter (fun q => q.1 ≠ e.2.1)
        else acc) dists

/-- Modelled from the spec: shortest-path lengths from `s` (see
`relaxOnce`); `none` for unreachable nodes. -/
def dijkstra (edges : List (NodeId × NodeId × ℚ)) (s : NodeId) (fuel : ℕ)
    (v : NodeId) : Option ℚ :=
  let sym := edges ++ edges.map (fun e => (e.2.1, e.1, e.2.2))
  alookup ((relaxOnce sym)^[fuel] [(s, 0)]) v

/-- `ShortestPathCalculator._compute_sequential` (shortest_paths.py lines
97-124): for every residential source and destination present in the graph it
stores `distances.get(j, self.D_infinity)` — the raw Dijkstra length with no
cutoff at `D_infinity`, or `D_infinity` itself when unreachable. -/
def compute_sequential (dij : NodeId → NodeId → Option ℚ) (inGraph : NodeId → Bool)
    (N dests : List NodeId) : DistMatrix :=
  fun u v =>
    if u ∈ N ∧ inGraph u ∧ v ∈ dests ∧ inGraph v then
      some ((dij u v).getD D_infinity)
    else none

/-! ### Reference definitions and concrete fixtures -/

/-- The reference weighted-distance formula, following the spec's words
(§4.2): a plain category contributes `w_c · min_{a ∈ A_c} distance(r, a)`
(`w_c · D∞` when `A_c` is empty); a depth category contributes
`w_c · Σ_{p=1..r} w_p · d_p` over the ascending distances with missing ranks
padded by `D∞`; the total is the plain sum plus the depth sum with no
normalization.  (The depth category weight is read off the same weighting
table accessor as the code; the claim about the missing-weight default is
settled separately.) -/
def spec_weighted_distance (sc : Scorer) (r : NodeId) (S : Alloc) : ℚ :=
  (sc.plain_weights.map (fun pw =>
      if h : (sc.L pw.1 ∪ S pw.1).Nonempty then
        pw.2 * (sc.L pw.1 ∪ S pw.1).inf' h (get_distance sc.matrix r)
      else pw.2 * D_infinity)).sum
  + (sc.depth_weights.map (fun dw =>
      ((sc.type_weight dw.1).getD (3/5)) *
        depthRankSum dw.2
          ((locDistances sc.matrix r (sc.L dw.1 ∪ S dw.1)).insertionSort (· ≤ ·)))).sum

/-- `Σ_c 1{j ∈ S[c]}`: the number of categories of the run that allocated
candidate `j` (the capacity usage of §3's second invariant). -/
def countAlloc (types : List String) (S : Alloc) (j : NodeId) : ℕ :=
  (types.filter (fun t => j ∈ S t)).length

/-- The PWL configuration of the shipped `config.yaml` (spec §4.2 defaults). -/
def defaultBps : List ℚ := [0, 400, 1800, 2400]

/-- Default PWL values matching `defaultBps`. -/
def defaultYs : List ℚ := [100, 100, 0, 0]

/-- Matrix with the single materialized pair `(0, 5) ↦ 500`. -/
def mx500 : DistMatrix := fun u v => if u = 0 ∧ v = 5 then some 500 else none

/-- Matrix with the single materialized pair `(0, 5) ↦ 5000`: a finite
Dijkstra length far beyond `D_infinity`, as `_compute_sequential` stores. -/
def mx5000 : DistMatrix := fun u v => if u = 0 ∧ v = 5 then some 5000 else none

/-- Matrix with the single materialized pair `(0, 9) ↦ 3100`. -/
def mx3100 : DistMatrix := fun u v => if u = 0 ∧ v = 9 then some 3100 else none

/-- Matrix with the single materialized pair `(0, 9) ↦ 3150`. -/
def mx3150 : DistMatrix := fun u v => if u = 0 ∧ v = 9 then some 3150 else none

/-- Matrix with the single materialized pair `(0, 9) ↦ 3200`. -/
def mx3200 : DistMatrix := fun u v => if u = 0 ∧ v = 9 then some 3200 else none

/-- Matrix with pairs `(0, 8) ↦ 500` and `(0, 1) ↦ 500` (a symmetric tie). -/
def mxTie : DistMatrix :=
  fun u v => if u = 0 ∧ (v = 8 ∨ v = 1) then some 500 else none

/-- One plain category `grocery` of weight 1, no existing amenities, matrix
`mx500`, default PWL. -/
def scPlain500 : Scorer :=
  { plain_weights := [("grocery", 1)], depth_weights := [],
    type_weight := fun _ => none, L := fun _ => ∅,
    matrix := mx500, breakpoints := defaultBps, scores := defaultYs }

/-- One plain category over `mx3200` (candidate 9 lies 3200 m away). -/
def scPlain3200 : Scorer :=
  { plain_weights := [("grocery", 1)], depth_weights := [],
    type_weight := fun _ => none, L := fun _ => ∅,
    matrix := mx3200, breakpoints := defaultBps, scores := defaultYs }

/-- One depth category `restaurant` (ranks `[1]`, category weight `1/4`), no
existing amenities, matrix `mx3100`, default PWL. -/
def scDepth3100 : Scorer :=
  { plain_weights := [], depth_weights := [("restaurant", [1])],
    type_weight := fun _ => some (1/4), L := fun _ => ∅,
    matrix := mx3100, breakpoints := defaultBps, scores := defaultYs }

/-- One depth category `restaurant` (ranks `[1]`, category weight `1/5`), no
existing amenities, matrix `mx3150`, default PWL. -/
def scDepth3150 : Scorer :=
  { plain_weights := [], depth_weights := [("restaurant", [1])],
    type_weight := fun _ => some (1/5), L := fun _ => ∅,
    matrix := mx3150, breakpoints := defaultBps, scores := defaultYs }

/-- One plain category whose only existing amenity sits at the materialized
distance 5000 (matrix `mx5000`). -/
def scFar : Scorer :=
  { plain_weights := [("grocery", 1)], depth_weights := [],
    type_weight := fun _ => none,
    L := fun t => if t = "grocery" then {5} else ∅,
    matrix := mx5000, breakpoints := defaultBps, scores := defaultYs }

/-- A bounded-matrix configuration with one plain and one depth category. -/
def scBoth : Scorer :=
  { plain_weights := [("grocery", 1)], depth_weights := [("restaurant", [1/2])],
    type_weight := fun _ => some (3/5),
    L := fun t => if t = "grocery" then {5} else if t = "restaurant" then {6} else ∅,
    matrix := fun u v =>
      if u = 0 ∧ v = 5 then some 700 else if u = 0 ∧ v = 6 then some 900 else none,
    breakpoints := defaultBps, scores := defaultYs }

/-- Depth category whose `amenity_types.weight` row is missing
(`type_weight` returns `none`), one existing restaurant 1000 m away. -/
def scNoWeight : Scorer :=
  { plain_weights := [], depth_weights := [("restaurant", [1])],
    type_weight := fun _ => none,
    L := fun t => if t = "restaurant" then {7} else ∅,
    matrix := fun u v => if u = 0 ∧ v = 7 then some 1000 else none,
    breakpoints := defaultBps, scores := defaultYs }

/-- Optimizer fixture built on `scDepth3100`: one building at node 0, which
is 3100 m (materialized) from candidate 9 — outside its 3000 m
neighborhood. -/
def gDepthFar : Greedy :=
  { sc := scDepth3100, residential_buildings := [(100, 0)], N := [0] }

/-- Optimizer fixture built on `scPlain500`: one building at node 0, 500 m
from candidate 5. -/
def gPlainNear : Greedy :=
  { sc := scPlain500, residential_buildings := [(100, 0)], N := [0] }

/-- Optimizer fixture with two candidates 8 and 1 both exactly 500 m from the
single resident: every `(type, candidate)` delta ties. -/
def gTie : Greedy :=
  { sc := { plain_weights := [("grocery", 1)], depth_weights := [],
            type_weight := fun _ => none, L := fun _ => ∅,
            matrix := mxTie, breakpoints := defaultBps, scores := defaultYs },
    residential_buildings := [(100, 0)], N := [0] }

/-- The budget/capacity invariant of §3 carried through the greedy loop:
per-category cardinality is tracked by `n_allocated` (itself at most `k`),
categories outside the run stay empty, and every candidate's allocation count
plus its remaining capacity stays within its initial capacity. -/
def GreedyInv (types : List String) (k : ℕ) (cap0 : NodeId → ℤ) (st : OptState) : Prop :=
  (∀ t ∈ types, (st.S t).card ≤ st.n_allocated t ∧ st.n_allocated t ≤ k)
  ∧ (∀ t, t ∉ types → st.S t = ∅)
  ∧ (∀ j, 0 ≤ st.caps j ∧ (countAlloc types st.S j : ℤ) + st.caps j ≤ cap0 j)

/-! ### Helper lemmas: folds with `min`, set enumeration, padded ranks -/

theorem foldl_min_le_init (l : List ℚ) (a : ℚ) : l.foldl min a ≤ a := by
  induction l generalizing a with
  | nil => exact le_refl a
  | cons x xs ih => exact le_trans (ih (min a x)) (min_le_left a x)

theorem foldl_min_perm {l₁ l₂ : List ℚ} (h : l₁.Perm l₂) (a : ℚ) :
    l₁.foldl min a = l₂.foldl min a :=
  h.foldl_op_eq

theorem foldl_min_le_mem {l : List ℚ} {x : ℚ} (hx : x ∈ l) (a : ℚ) :
    l.foldl min a ≤ x := by
  induction l generalizing a with
  | nil => cases hx
  | cons y ys ih =>
    rcases List.mem_cons.mp hx with rfl | hmem
    · exact le_trans (foldl_min_le_init ys (min a x)) (min_le_right a x)
    · exact ih hmem (min a y)

/-- `A ⊆ B` splits the enumerated distance list of `B` into that of `A` plus
that of `B \ A`, up to permutation. -/
theorem locDistances_split {A B : Finset NodeId} (hAB : A ⊆ B)
    (m : DistMatrix) (r : NodeId) :
    (locDistances m r B).Perm (locDistances m r A ++ locDistances m r (B \ A)) := by
  unfold locDistances
  rw [← List.map_append]
  refine List.Perm.map _ ?_
  rw [← Multiset.coe_eq_coe, ← Multiset.coe_add, Finset.sort_eq, Finset.sort_eq,
    Finset.sort_eq, Finset.sdiff_val]
  exact (add_tsub_cancel_of_le (Finset.val_le_iff.mpr hAB)).symm

/-- Inserting a fresh element prepends its distance, up to permutation. -/
theorem locDistances_insert {A : Finset NodeId} {j : NodeId} (hj : j ∉ A)
    (m : DistMatrix) (r : NodeId) :
    (locDistances m r (insert j A)).Perm (get_distance m r j :: locDistances m r A) := by
  unfold locDistances
  have h1 : ((insert j A).sort (· ≤ ·)).Perm (j :: A.sort (· ≤ ·)) := by
    rw [← Multiset.coe_eq_coe, Finset.sort_eq]
    show (insert j A).val = ↑(j :: A.sort (· ≤ ·))
    rw [Finset.insert_val_of_not_mem hj, ← Multiset.cons_coe, Finset.sort_eq]
  simpa using h1.map (get_distance m r)

theorem get_distance_le_of_bounded {m : DistMatrix}
    (hm : ∀ u v q, m u v = some q → q ≤ D_infinity) (u v : NodeId) :
    get_distance m u v ≤ D_infinity := by
  unfold get_distance
  cases h : m u v with
  | none => simp
  | some q => simpa using hm u v q h

theorem mem_locDistances_le {m : DistMatrix}
    (hm : ∀ u v q, m u v = some q → q ≤ D_infinity) (r : NodeId) (A : Finset NodeId)
    {x : ℚ} (hx : x ∈ locDistances m r A) : x ≤ D_infinity := by
  unfold locDistances at hx
  rcases List.mem_map.mp hx with ⟨a, -, rfl⟩
  exact get_distance_le_of_bounded hm r a

/-- The running minimum of the plain scan never exceeds its `D_infinity`
seed. -/
theorem plain_fold_le (m : DistMatrix) (r : NodeId) (A : Finset NodeId) :
    (locDistances m r A).foldl min D_infinity ≤ D_infinity :=
  foldl_min_le_init _ _

/-- Growing the location set can only lower the plain running minimum. -/
theorem plain_fold_anti (m : DistMatrix) (r : NodeId) {A B : Finset NodeId}
    (hAB : A ⊆ B) :
    (locDistances m r B).foldl min D_infinity
      ≤ (locDistances m r A).foldl min D_infinity := by
  rw [foldl_min_perm (locDistances_split hAB m r), List.foldl_append]
  exact foldl_min_le_init _ _

/-- A location farther than `D_infinity` leaves the plain running minimum
unchanged. -/
theorem plain_fold_insert_far (m : DistMatrix) (r : NodeId) (A : Finset NodeId)
    {j : NodeId} (hfar : D_infinity ≤ get_distance m r j) :
    (locDistances m r (insert j A)).foldl min D_infinity
      = (locDistances m r A).foldl min D_infinity := by
  by_cases hj : j ∈ A
  · rw [Finset.insert_eq_self.mpr hj]
  · rw [foldl_min_perm (locDistances_insert hj m r), List.foldl_cons,
      min_eq_left hfar]

theorem plainContribution_anti (m : DistMatrix) (r : NodeId) {w : ℚ} (hw : 0 ≤ w)
    {A B : Finset NodeId} (hAB : A ⊆ B) :
    plainContribution m r w B ≤ plainContribution m r w A := by
  unfold plainContribution
  by_cases hB : B.Nonempty
  · by_cases hA : A.Nonempty
    · simp only [hA, hB, if_true]
      exact mul_le_mul_of_nonneg_left (plain_fold_anti m r hAB) hw
    · simp only [hA, hB, if_true, if_false]
      exact mul_le_mul_of_nonneg_left (plain_fold_le m r B) hw
  · have hA : ¬A.Nonempty := fun h => hB (h.mono hAB)
    simp [hA, hB]

theorem plainContribution_insert_far (m : DistMatrix) (r : NodeId) (w : ℚ)
    (A : Finset NodeId) {j : NodeId} (hfar : D_infinity ≤ get_distance m r j) :
    plainContribution m r w (insert j A) = plainContribution m r w A := by
  unfold plainContribution
  by_cases hA : A.Nonempty
  · simp only [Finset.insert_nonempty, hA, if_true]
    rw [plain_fold_insert_far m r A hfar]
  · have hAe : A = ∅ := Finset.not_nonempty_iff_eq_empty.mp hA
    subst hAe
    simp only [Finset.insert_nonempty, if_true, Finset.not_nonempty_empty, if_false]
    rw [foldl_min_perm (locDistances_insert (Finset.not_mem_empty j) m r)]
    simp [locDistances, min_eq_left hfar]

theorem depthRankSum_nil (ws : List ℚ) : depthRankSum ws [] = ws.sum * D_infinity := by
  induction ws with
  | nil => simp [depthRankSum]
  | cons w ws ih => rw [depthRankSum, ih, List.sum_cons]; ring

theorem depthRankSum_cons (w : ℚ) (ws l : List ℚ) :
    depthRankSum (w :: ws) l = w * l.getD 0 D_infinity + depthRankSum ws l.tail := by
  cases l <;> simp [depthRankSum]

theorem getD_tail (l : List ℚ) (p : ℕ) (d : ℚ) :
    l.tail.getD p d = l.getD (p + 1) d := by
  cases l <;> simp

/-- Rank-wise dominance of padded rank distances gives dominance of the
weighted rank sum (for nonnegative rank weights). -/
theorem depthRankSum_mono {ws : List ℚ} (hw : ∀ w ∈ ws, 0 ≤ w) {la lb : List ℚ}
    (h : ∀ p : ℕ, lb.getD p D_infinity ≤ la.getD p D_infinity) :
    depthRankSum ws lb ≤ depthRankSum ws la := by
  induction ws generalizing la lb with
  | nil => simp [depthRankSum]
  | cons w ws ih =>
    rw [depthRankSum_cons, depthRankSum_cons]
    refine add_le_add (mul_le_mul_of_nonneg_left (h 0) (hw w (List.mem_cons_self w ws))) ?_
    refine ih (fun x hx => hw x (List.mem_cons_of_mem _ hx)) (fun p => ?_)
    rw [getD_tail, getD_tail]
    exact h (p + 1)

theorem getD_le_of_forall_le {l : List ℚ} (hb : ∀ y ∈ l, y ≤ D_infinity) (p : ℕ) :
    l.getD p D_infinity ≤ D_infinity := by
  by_cases hp : p < l.length
  · rw [List.getD_eq_getElem?_getD, List.getElem?_eq_getElem hp]
    exact hb _ (l.getElem_mem hp)
  · rw [List.getD_eq_getElem?_getD, List.getElem?_eq_none (le_of_not_lt hp)]
    simp

/-- Along a sorted list, padded rank distances are monotone in the rank,
provided the elements stay below the `D_infinity` pad. -/
theorem sorted_getD_mono {l : List ℚ} (hs : l.Sorted (· ≤ ·))
    (hb : ∀ y ∈ l, y ≤ D_infinity) {p q : ℕ} (hpq : p ≤ q) :
    l.getD p D_infinity ≤ l.getD q D_infinity := by
  by_cases hq : q < l.length
  · have hp : p < l.length := lt_of_le_of_lt hpq hq
    rw [List.getD_eq_getElem?_getD, List.getElem?_eq_getElem hp,
      List.getD_eq_getElem?_getD, List.getElem?_eq_getElem hq]
    exact hs.rel_get_of_le hpq
  · rw [List.getD_eq_getElem?_getD (n := q), List.getElem?_eq_none (le_of_not_lt hq)]
    simpa using getD_le_of_forall_le hb p

/-- Placing one more (bounded) element into a sorted bounded list can only
lower each padded rank distance. -/
theorem getD_orderedInsert_le {l : List ℚ} (hs : l.Sorted (· ≤ ·))
    (hb : ∀ y ∈ l, y ≤ D_infinity) {x : ℚ} (hx : x ≤ D_infinity) (p : ℕ) :
    (l.orderedInsert (· ≤ ·) x).getD p D_infinity ≤ l.getD p D_infinity := by
  induction l generalizing p with
  | nil =>
    cases p with
    | zero => simpa [List.orderedInsert] using hx
    | succ p => simp [List.orderedInsert]
  | cons a t ih =>
    rw [List.orderedInsert]
    split_ifs with hxa
    · cases p with
      | zero => simpa using hxa
      | succ p =>
        rw [List.getD_cons_succ]
        exact sorted_getD_mono hs hb (Nat.le_succ p)
    · cases p with
      | zero => simp
      | succ p =>
        rw [List.getD_cons_succ, List.getD_cons_succ]
        exact ih hs.of_cons (fun y hy => hb y (List.mem_cons_of_mem _ hy)) p

/-- Sorting is determined by the multiset of elements. -/
theorem insertionSort_eq_of_perm {la lb : List ℚ} (h : la.Perm lb) :
    la.insertionSort (· ≤ ·) = lb.insertionSort (· ≤ ·) :=
  List.eq_of_perm_of_sorted
    ((List.perm_insertionSort _ la).trans (h.trans (List.perm_insertionSort _ lb).symm))
    (List.sorted_insertionSort _ la) (List.sorted_insertionSort _ lb)

/-- Appending extra (bounded) distances can only lower each padded rank of the
sorted list. -/
theorem getD_insertionSort_append_le (ds extra : List ℚ)
    (hb : ∀ y ∈ ds ++ extra, y ≤ D_infinity) (p : ℕ) :
    ((ds ++ extra).insertionSort (· ≤ ·)).getD p D_infinity
      ≤ (ds.insertionSort (· ≤ ·)).getD p D_infinity := by
  induction extra generalizing p with
  | nil => simp
  | cons x ex ih =>
    have hperm : (ds ++ x :: ex).Perm (x :: (ds ++ ex)) := List.perm_middle
    rw [insertionSort_eq_of_perm hperm, List.insertionSort]
    have hsorted : ((ds ++ ex).insertionSort (· ≤ ·)).Sorted (· ≤ ·) :=
      List.sorted_insertionSort _ _
    have hbs : ∀ y ∈ (ds ++ ex).insertionSort (· ≤ ·), y ≤ D_infinity := by
      intro y hy
      have : y ∈ ds ++ ex := (List.perm_insertionSort _ _).mem_iff.mp hy
      rcases List.mem_append.mp this with h1 | h1
      · exact hb y (List.mem_append_left _ h1)
      · exact hb y (List.mem_append_right _ (List.mem_cons_of_mem _ h1))
    have hx : x ≤ D_infinity := hb x (List.mem_append_right _ (List.mem_cons_self x ex))
    refine le_trans (getD_orderedInsert_le hsorted hbs hx p) (ih ?_ p)
    intro y hy
    rcases List.mem_append.mp hy with h1 | h1
    · exact hb y (List.mem_append_left _ h1)
    · exact hb y (List.mem_append_right _ (List.mem_cons_of_mem _ h1))

/-- Growing the location set can only lower each padded sorted rank distance
(for a bounded matrix). -/
theorem getD_locDistances_anti {m : DistMatrix}
    (hm : ∀ u v q, m u v = some q → q ≤ D_infinity) (r : NodeId)
    {A B : Finset NodeId} (hAB : A ⊆ B) (p : ℕ) :
    ((locDistances m r B).insertionSort (· ≤ ·)).getD p D_infinity
      ≤ ((locDistances m r A).insertionSort (· ≤ ·)).getD p D_infinity := by
  rw [insertionSort_eq_of_perm (locDistances_split hAB m r)]
  refine getD_insertionSort_append_le _ _ (fun y hy => ?_) p
  rcases List.mem_append.mp hy with h1 | h1
  · exact mem_locDistances_le hm r A h1
  · exact mem_locDistances_le hm r (B \ A) h1

theorem depthContribution_anti {m : DistMatrix}
    (hm : ∀ u v q, m u v = some q → q ≤ D_infinity) (r : NodeId) {catW : ℚ}
    (hcw : 0 ≤ catW) {ws : List ℚ} (hw : ∀ w ∈ ws, 0 ≤ w)
    {A B : Finset NodeId} (hAB : A ⊆ B) :
    depthContribution m r catW ws B ≤ depthContribution m r catW ws A := by
  unfold depthContribution
  by_cases hB : B.Nonempty
  · have hArank : ∀ p : ℕ,
        ((locDistances m r B).insertionSort (· ≤ ·)).getD p D_infinity
          ≤ ((locDistances m r A).insertionSort (· ≤ ·)).getD p D_infinity :=
      getD_locDistances_anti hm r hAB
    by_cases hA : A.Nonempty
    · simp only [hA, hB, if_true]
      exact mul_le_mul_of_nonneg_left (depthRankSum_mono hw hArank) hcw
    · have hAe : A = ∅ := Finset.not_nonempty_iff_eq_empty.mp hA
      subst hAe
      simp only [hB, if_true, Finset.not_nonempty_empty, if_false]
      rw [← depthRankSum_nil ws]
      refine mul_le_mul_of_nonneg_left (depthRankSum_mono hw (fun p => ?_)) hcw
      have : ((locDistances m r ∅).insertionSort (· ≤ ·)) = [] := by
        simp [locDistances]
      rw [← this]
      exact hArank p
  · have hA : ¬A.Nonempty := fun h => hB (h.mono hAB)
    simp [hA, hB]

theorem foldl_min_eq_or_mem (l : List ℚ) (a : ℚ) :
    l.foldl min a = a ∨ l.foldl min a ∈ l := by
  induction l generalizing a with
  | nil => exact Or.inl rfl
  | cons x xs ih =>
    rw [List.foldl_cons]
    rcases ih (min a x) with h | h
    · rcases min_cases a x with ⟨hm, -⟩ | ⟨hm, -⟩
      · exact Or.inl (by rw [h, hm])
      · exact Or.inr (by rw [h, hm]; exact List.mem_cons_self x xs)
    · exact Or.inr (List.mem_cons_of_mem x h)

/-- With a bounded matrix, the plain scan computes exactly the minimum
distance over a nonempty location set. -/
theorem plain_fold_eq_inf {m : DistMatrix} (r : NodeId) {A : Finset NodeId}
    (h : A.Nonempty) (hb : ∀ x ∈ locDistances m r A, x ≤ D_infinity) :
    (locDistances m r A).foldl min D_infinity = A.inf' h (get_distance m r) := by
  unfold locDistances at *
  apply le_antisymm
  · obtain ⟨a, haA, ha⟩ := Finset.exists_mem_eq_inf' h (get_distance m r)
    rw [ha]
    exact foldl_min_le_mem (List.mem_map_of_mem _ ((Finset.mem_sort _).mpr haA)) _
  · rcases foldl_min_eq_or_mem ((A.sort (· ≤ ·)).map (get_distance m r)) D_infinity
      with h1 | h1
    · rw [h1]
      obtain ⟨a, haA, ha⟩ := Finset.exists_mem_eq_inf' h (get_distance m r)
      rw [ha]
      exact hb _ (List.mem_map_of_mem _ ((Finset.mem_sort _).mpr haA))
    · rcases List.mem_map.mp h1 with ⟨a, haA, ha⟩
      rw [← ha]
      exact Finset.inf'_le _ ((Finset.mem_sort _).mp haA)

/-- Adding an amenity at looked-up distance `≥ D_infinity` leaves the whole
weighted distance unchanged in a configuration without depth categories. -/
theorem compute_weighted_distance_insert_far {sc : Scorer}
    (hd : sc.depth_weights = []) (S : Alloc) (t : String) {u j : NodeId}
    (hfar : D_infinity ≤ get_distance sc.matrix u j) :
    compute_weighted_distance sc u (allocAdd S t j)
      = compute_weighted_distance sc u S := by
  unfold compute_weighted_distance
  rw [hd]
  simp only [List.map_nil, List.sum_nil, add_zero]
  refine congrArg List.sum (List.map_congr_left (fun pw _ => ?_))
  by_cases hpt : pw.1 = t
  · have hadd : allocAdd S t j pw.1 = insert j (S pw.1) := by
      rw [allocAdd, if_pos hpt, hpt]
    rw [hadd, Finset.union_insert]
    exact plainContribution_insert_far sc.matrix u pw.2 _ hfar
  · rw [allocAdd, if_neg hpt]

/-- `compute_walkscore` version of `compute_weighted_distance_insert_far`. -/
theorem compute_walkscore_insert_far {sc : Scorer}
    (hd : sc.depth_weights = []) (S : Alloc) (t : String) {u j : NodeId}
    (hfar : D_infinity ≤ get_distance sc.matrix u j) :
    compute_walkscore sc u (allocAdd S t j) = compute_walkscore sc u S := by
  unfold compute_walkscore
  rw [compute_weighted_distance_insert_far hd S t hfar]

theorem sum_map_sub {α : Type} (l : List α) (f g : α → ℚ) :
    (l.map (fun b => f b - g b)).sum = (l.map f).sum - (l.map g).sum := by
  induction l with
  | nil => simp
  | cons x xs ih => simp only [List.map_cons, List.sum_cons, ih]; ring

theorem sum_filter_of_zero {α : Type} (l : List α) (P : α → Bool) (f : α → ℚ)
    (h : ∀ b ∈ l, P b = false → f b = 0) :
    ((l.filter P).map f).sum = (l.map f).sum := by
  induction l with
  | nil => simp
  | cons x xs ih =>
    have ihx := ih (fun b hb => h b (List.mem_cons_of_mem _ hb))
    cases hx : P x with
    | true => simp [List.filter_cons, hx, ihx]
    | false => simp [List.filter_cons, hx, ihx, h x (List.mem_cons_self x xs) hx]

/-- Full characterization of the strict-improvement scan: either no pair beat
the incumbent, or the result is the first pair reaching the running maximum,
with everything before it strictly below and everything after it no higher. -/
theorem scanBestGo_spec (f : String × NodeId → ℚ) (l : List (String × NodeId))
    (best : (String × NodeId) × ℚ) :
    (scanBestGo f best l = best ∧ ∀ q ∈ l, f q ≤ best.2)
    ∨ (∃ l₁ l₂, l = l₁ ++ (scanBestGo f best l).1 :: l₂
        ∧ (scanBestGo f best l).2 = f (scanBestGo f best l).1
        ∧ best.2 < (scanBestGo f best l).2
        ∧ (∀ q ∈ l₁, f q < (scanBestGo f best l).2)
        ∧ (∀ q ∈ l₂, f q ≤ (scanBestGo f best l).2)) := by
  induction l generalizing best with
  | nil => exact Or.inl ⟨rfl, by simp⟩
  | cons p ps ih =>
    rw [scanBestGo]
    split_ifs with himp
    · rcases ih (p, f p) with ⟨heq, hle⟩ | ⟨l₁, l₂, hsplit, hval, hlt, hbefore, hafter⟩
      · refine Or.inr ⟨[], ps, by simp [heq], by simp [heq], by rw [heq]; exact himp,
          by simp, by rw [heq]; exact hle⟩
      · refine Or.inr ⟨p :: l₁, l₂, ?_, hval, lt_trans himp hlt, ?_, hafter⟩
        · rw [List.cons_append, ← hsplit]
        · intro q hq
          rcases List.mem_cons.mp hq with heq2 | hq2
          · rw [heq2]; exact hlt
          · exact hbefore q hq2
    · rcases ih best with ⟨heq, hle⟩ | ⟨l₁, l₂, hsplit, hval, hlt, hbefore, hafter⟩
      · refine Or.inl ⟨heq, fun q hq => ?_⟩
        rcases List.mem_cons.mp hq with heq2 | hq2
        · rw [heq2]; exact le_of_not_lt himp
        · exact hle q hq2
      · refine Or.inr ⟨p :: l₁, l₂, ?_, hval, hlt, ?_, hafter⟩
        · rw [List.cons_append, ← hsplit]
        · intro q hq
          rcases List.mem_cons.mp hq with heq2 | hq2
          · rw [heq2]; exact lt_of_le_of_lt (le_of_not_lt himp) hlt
          · exact hbefore q hq2

/-- The selected pair is the first maximizer of the scanned list. -/
theorem scanBest_spec {f : String × NodeId → ℚ} {l : List (String × NodeId)}
    {p : String × NodeId} {v : ℚ} (h : scanBest f l = some (p, v)) :
    v = f p ∧ (∀ q ∈ l, f q ≤ v)
      ∧ ∃ l₁ l₂, l = l₁ ++ p :: l₂ ∧ ∀ q ∈ l₁, f q < v := by
  match l, h with
  | q :: qs, h =>
    rw [scanBest] at h
    have hgo := scanBestGo_spec f qs (q, f q)
    injection h with h
    rcases hgo with ⟨heq, hle⟩ | ⟨l₁, l₂, hsplit, hval, hlt, hbefore, hafter⟩
    · rw [heq] at h
      injection h with h1 h2
      subst h1
      subst h2
      refine ⟨rfl, fun x hx => ?_, [], qs, rfl, by simp⟩
      rcases List.mem_cons.mp hx with heq2 | hx2
      · rw [heq2]
      · exact hle x hx2
    · rw [h] at hsplit hval hlt hbefore hafter
      have hv : v = f p := hval
      refine ⟨hv, fun x hx => ?_, q :: l₁, l₂, by simp [hsplit], fun x hx => ?_⟩
      · rcases List.mem_cons.mp hx with heq2 | hx2
        · rw [heq2]; exact le_of_lt hlt
        · rw [hsplit] at hx2
          rcases List.mem_append.mp hx2 with hx3 | hx3
          · exact le_of_lt (hbefore x hx3)
          · rcases List.mem_cons.mp hx3 with heq3 | hx4
            · rw [heq3]; exact le_of_eq hval.symm
            · exact hafter x hx4
      · rcases List.mem_cons.mp hx with heq2 | hx2
        · rw [heq2]; exact hlt
        · exact hbefore x hx2

/-- Membership in the scanned pair list. -/
theorem mem_candidatePairs {types : List String} {k : ℕ} {n : String → ℕ}
    {avail : List NodeId} {t : String} {j : NodeId} :
    (t, j) ∈ candidatePairs types k n avail ↔ t ∈ types ∧ n t < k ∧ j ∈ avail := by
  unfold candidatePairs
  simp only [List.mem_flatMap, List.mem_filter, List.mem_map, decide_eq_true_eq]
  constructor
  · rintro ⟨t', ⟨ht', hk⟩, j', hj', heq⟩
    cases heq
    exact ⟨ht', hk, hj'⟩
  · rintro ⟨ht, hk, hj⟩
    exact ⟨t, ⟨ht, hk⟩, ⟨j, hj, rfl⟩⟩

theorem countAlloc_allocAdd_ne (types : List String) (S : Alloc) (a : String)
    {j jj : NodeId} (hne : jj ≠ j) :
    countAlloc types (allocAdd S a j) jj = countAlloc types S jj := by
  unfold countAlloc
  refine congrArg List.length (List.filter_congr (fun t _ => ?_))
  unfold allocAdd
  by_cases hta : t = a
  · subst hta
    simp [Finset.mem_insert, hne]
  · simp [hta]

theorem countAlloc_allocAdd_le (types : List String) (hnd : types.Nodup)
    (S : Alloc) (a : String) (j : NodeId) :
    countAlloc types (allocAdd S a j) j ≤ countAlloc types S j + 1 := by
  induction types with
  | nil => simp [countAlloc]
  | cons t ts ih =>
    obtain ⟨hta, hnd'⟩ := List.nodup_cons.mp hnd
    unfold countAlloc at *
    by_cases hteq : t = a
    · subst hteq
      have htail : ts.filter (fun tt => decide (j ∈ allocAdd S t j tt))
          = ts.filter (fun tt => decide (j ∈ S tt)) := by
        refine List.filter_congr (fun tt htt => ?_)
        have : tt ≠ t := fun h => hta (h ▸ htt)
        simp [allocAdd, this]
      rw [List.filter_cons, List.filter_cons, htail]
      have hmem : j ∈ allocAdd S t j t := by simp [allocAdd]
      by_cases hj : j ∈ S t <;> simp [hmem, hj] <;> omega
    · have hhead : (decide (j ∈ allocAdd S a j t)) = (decide (j ∈ S t)) := by
        simp [allocAdd, hteq]
      rw [List.filter_cons, List.filter_cons, hhead]
      cases h : decide (j ∈ S t) with
      | true => simpa [h] using ih hnd'
      | false => simpa [h] using ih hnd'

theorem countAlloc_empty (types : List String) (j : NodeId) :
    countAlloc types emptyAlloc j = 0 := by
  unfold countAlloc emptyAlloc
  simp

/-- One committed iteration of the greedy loop preserves the §3 invariant. -/
theorem greedyStep_inv {g : Greedy} {types : List String} {M : List NodeId}
    {k : ℕ} {cap0 : NodeId → ℤ} {st st' : OptState} (hnd : types.Nodup)
    (hinv : GreedyInv types k cap0 st) (h : greedyStep g types M k st = some st') :
    GreedyInv types k cap0 st' := by
  obtain ⟨hcard, hoff, hcaps⟩ := hinv
  unfold greedyStep at h
  split_ifs at h with h1 h2
  rcases hscan : scanBest (fun p => calculate_objective_increase g st.S p.1 p.2)
      (candidatePairs types k st.n_allocated (availableCandidates M st.caps))
    with _ | pv
  · rw [hscan] at h
    cases h
  · rw [hscan] at h
    obtain ⟨p, v⟩ := pv
    injection h with h
    subst h
    obtain ⟨-, -, l₁, l₂, hsplit, -⟩ := scanBest_spec hscan
    have hpmem : p ∈ candidatePairs types k st.n_allocated (availableCandidates M st.caps) := by
      rw [hsplit]
      exact List.mem_append_right _ (List.mem_cons_self _ _)
    have hp : p.1 ∈ types ∧ st.n_allocated p.1 < k ∧ p.2 ∈ availableCandidates M st.caps := by
      have := @mem_candidatePairs types k st.n_allocated
        (availableCandidates M st.caps) p.1 p.2
      exact this.mp hpmem
    obtain ⟨hpt, hpk, hpavail⟩ := hp
    have hpcap : 0 < st.caps p.2 := by
      have := List.mem_filter.mp hpavail
      simpa using this.2
    refine ⟨?_, ?_, ?_⟩
    · intro t ht
      dsimp only
      by_cases hteq : t = p.1
      · constructor
        · have h1 : allocAdd st.S p.1 p.2 t = insert p.2 (st.S t) := by
            rw [allocAdd, if_pos hteq, hteq]
          rw [h1, if_pos hteq]
          exact le_trans (Finset.card_insert_le _ _)
            (Nat.add_le_add_right (hcard t ht).1 1)
        · rw [if_pos hteq, hteq]
          omega
      · have h1 : allocAdd st.S p.1 p.2 t = st.S t := by rw [allocAdd, if_neg hteq]
        rw [h1, if_neg hteq]
        exact hcard t ht
    · intro t ht
      dsimp only
      have hteq : t ≠ p.1 := fun hc => ht (hc ▸ hpt)
      have h1 : allocAdd st.S p.1 p.2 t = st.S t := by rw [allocAdd, if_neg hteq]
      rw [h1]
      exact hoff t ht
    · intro j
      dsimp only
      by_cases hje : j = p.2
      · rw [hje]
        have hle := countAlloc_allocAdd_le types hnd st.S p.1 p.2
        have h2 := (hcaps p.2).2
        have hcast : (countAlloc types (allocAdd st.S p.1 p.2) p.2 : ℤ)
            ≤ (countAlloc types st.S p.2 : ℤ) + 1 := by exact_mod_cast hle
        simp only [eq_self_iff_true, if_true]
        omega
      · rw [countAlloc_allocAdd_ne types st.S p.1 hje]
        simp only [if_neg hje]
        exact hcaps j

/-- The §3 invariant holds in every state the greedy loop reaches. -/
theorem greedyLoop_inv {g : Greedy} {types : List String} {M : List NodeId}
    {k : ℕ} {cap0 : NodeId → ℤ} (hnd : types.Nodup) (fuel : ℕ) {st : OptState}
    (hinv : GreedyInv types k cap0 st) :
    GreedyInv types k cap0 (greedyLoop g types M k fuel st) := by
  induction fuel generalizing st with
  | zero => exact hinv
  | succ fuel ih =>
    rw [greedyLoop]
    rcases hstep : greedyStep g types M k st with _ | st'
    · exact hinv
    · exact ih (greedyStep_inv hnd hinv hstep)

theorem initState_inv {types : List String} {k : ℕ} {cap0 : NodeId → ℤ}
    (hcap : ∀ j, 1 ≤ cap0 j) : GreedyInv types k cap0 (initState cap0) := by
  refine ⟨fun t _ => ⟨by simp [initState, emptyAlloc], by simp [initState]⟩,
    fun t _ => by simp [initState, emptyAlloc], fun j => ⟨by have := hcap j; simp [initState]; omega, ?_⟩⟩
  show (countAlloc types (initState cap0).S j : ℤ) + (initState cap0).caps j ≤ cap0 j
  rw [show (initState cap0).S = emptyAlloc from rfl, countAlloc_empty]
  simp [initState]

/-- Closed form of the PWL under the default configuration
`[0, 400, 1800, 2400] → [100, 100, 0, 0]`. -/
theorem pwl_default_eq (d : ℚ) :
    piecewise_linear_score defaultBps defaultYs d =
      if d ≤ 400 then 100
      else if d ≤ 1800 then 100 - (d - 400) * 100 / 1400
      else 0 := by
  have hlast : (defaultBps.getLastD 0) = 2400 := by norm_num [defaultBps]
  unfold piecewise_linear_score
  rw [hlast]
  unfold defaultBps defaultYs pwlSegments
  dsimp only
  by_cases h1 : d ≤ 400
  · have hc1 : (0 : ℚ) ≤ max 0 (min d 2400) := le_max_left 0 _
    have hc2 : max 0 (min d 2400) ≤ 400 :=
      max_le (by norm_num) (le_trans (min_le_left d 2400) h1)
    rw [if_pos h1, if_pos ⟨hc1, hc2⟩, if_neg (by norm_num : ¬(400 : ℚ) = 0)]
    norm_num
  · rw [not_le] at h1
    by_cases h2 : d ≤ 1800
    · have hdc : max 0 (min d 2400) = d := by
        rw [min_eq_left (by linarith), max_eq_right (by linarith)]
      have hv2 : (100 : ℚ) + (0 - 100) * (d - 400) / (1800 - 400) ≤ 100 := by
        rw [show ((0 : ℚ) - 100) * (d - 400) / (1800 - 400)
            = -((d - 400) * (100 / 1400)) from by ring]
        nlinarith
      have hv1 : (0 : ℚ) ≤ 100 + (0 - 100) * (d - 400) / (1800 - 400) := by
        rw [show ((0 : ℚ) - 100) * (d - 400) / (1800 - 400)
            = -((d - 400) * (100 / 1400)) from by ring]
        nlinarith
      rw [if_neg (not_le.mpr h1), if_pos h2, hdc,
        if_neg (show ¬((0 : ℚ) ≤ d ∧ d ≤ 400) from fun hc => by linarith [hc.2])]
      unfold pwlSegments
      rw [if_pos ⟨by linarith, h2⟩, if_neg (by norm_num : ¬(1800 : ℚ) = 400),
        Option.getD_some, min_eq_right hv2,
        max_eq_right hv1]
      ring
    · rw [not_le] at h2
      have hdc1 : (1800 : ℚ) < max 0 (min d 2400) := by
        rcases le_total d 2400 with h | h
        · rw [min_eq_left h, max_eq_right (by linarith)]; linarith
        · rw [min_eq_right h]; norm_num
      have hdc2 : max 0 (min d 2400) ≤ 2400 :=
        max_le (by norm_num) (min_le_right d 2400)
      rw [if_neg (not_le.mpr h1), if_neg (not_le.mpr h2),
        if_neg (show ¬((0 : ℚ) ≤ max 0 (min d 2400) ∧ max 0 (min d 2400) ≤ 400) from
          fun hc => by linarith [hc.2])]
      unfold pwlSegments
      rw [if_neg (show ¬((400 : ℚ) ≤ max 0 (min d 2400) ∧ max 0 (min d 2400) ≤ 1800) from
          fun hc => by linarith [hc.2])]
      unfold pwlSegments
      rw [if_pos ⟨le_of_lt hdc1, hdc2⟩, if_neg (by norm_num : ¬(2400 : ℚ) = 1800)]
      norm_num

/-- The default PWL is monotonically non-increasing. -/
theorem pwl_default_anti {a b : ℚ} (hab : a ≤ b) :
    piecewise_linear_score defaultBps defaultYs b
      ≤ piecewise_linear_score defaultBps defaultYs a := by
  rw [pwl_default_eq, pwl_default_eq]
  split_ifs <;> linarith

/-- `compute_weighted_distance` is antitone in the allocation set whenever the
materialized distances are bounded by `D_infinity` and the configured weights
are nonnegative. -/
theorem compute_weighted_distance_anti (sc : Scorer) (r : NodeId)
    (hm : ∀ u v q, sc.matrix u v = some q → q ≤ D_infinity)
    (hpw : ∀ pw ∈ sc.plain_weights, 0 ≤ pw.2)
    (hcw : ∀ dw ∈ sc.depth_weights, 0 ≤ (sc.type_weight dw.1).getD (3/5))
    (hdw : ∀ dw ∈ sc.depth_weights, ∀ w ∈ dw.2, 0 ≤ w)
    {S T : Alloc} (hST : ∀ t, S t ⊆ T t) :
    compute_weighted_distance sc r T ≤ compute_weighted_distance sc r S := by
  unfold compute_weighted_distance
  refine add_le_add (List.sum_le_sum ?_) (List.sum_le_sum ?_)
  · intro pw hpwm
    exact plainContribution_anti sc.matrix r (hpw pw hpwm)
      (Finset.union_subset_union_right (hST pw.1))
  · intro dw hdwm
    exact depthContribution_anti hm r (hcw dw hdwm) (hdw dw hdwm)
      (Finset.union_subset_union_right (hST dw.1))

/-! ### Claim theorems -/

/-- C2 (amended).  Score monotonicity: for any resident `r` and allocation
sets `S ⊆ S'`, `compute_walkscore(r, S') ≥ compute_walkscore(r, S)` — provided
the materialized distances respect the fabric contract `distance < D∞` (§4.1),
the configured weights are nonnegative (§7 makes negative weights a fatal
configuration error), and the PWL is the default `[0,400,1800,2400] →
[100,100,0,0]`.  The distance bound is the amendment the counterexample
forces: the code stores raw Dijkstra lengths above `D∞` and the depth branch
does not cap rank distances, so a depth rank padded with `D∞` can be replaced
by a larger materialized value. -/
theorem claimC2 (sc : Scorer) (r : NodeId) (S T : Alloc)
    (hm : ∀ u v q, sc.matrix u v = some q → q ≤ D_infinity)
    (hpw : ∀ pw ∈ sc.plain_weights, 0 ≤ pw.2)
    (hcw : ∀ dw ∈ sc.depth_weights, 0 ≤ (sc.type_weight dw.1).getD (3/5))
    (hdw : ∀ dw ∈ sc.depth_weights, ∀ w ∈ dw.2, 0 ≤ w)
    (hbps : sc.breakpoints = defaultBps) (hys : sc.scores = defaultYs)
    (hST : ∀ t, S t ⊆ T t) :
    compute_walkscore sc r S ≤ compute_walkscore sc r T := by
  unfold compute_walkscore
  rw [hbps, hys]
  exact pwl_default_anti (compute_weighted_distance_anti sc r hm hpw hcw hdw hST)

/-- C2 counterexample: on the code as written, adding a depth amenity
whose materialized distance is `3100 > D∞` strictly lowers the resident's
WalkScore (the rank previously padded with `D∞ = 2400` now contributes
`3100`), refuting the claim as stated. -/
theorem claimC2_cex :
    compute_walkscore scDepth3100 0 (allocAdd emptyAlloc "restaurant" 9)
      < compute_walkscore scDepth3100 0 emptyAlloc := by
  have h1 : compute_weighted_distance scDepth3100 0 emptyAlloc = 600 := by
    norm_num [compute_weighted_distance, scDepth3100, emptyAlloc, depthContribution,
      depthRankSum, D_infinity]
  have h2 : compute_weighted_distance scDepth3100 0 (allocAdd emptyAlloc "restaurant" 9)
      = 775 := by
    have hA : allocAdd emptyAlloc "restaurant" 9 "restaurant" = {9} := by
      simp [allocAdd, emptyAlloc]
    norm_num [compute_weighted_distance, scDepth3100, hA, depthContribution,
      depthRankSum, locDistances, Finset.sort_singleton, List.insertionSort,
      List.orderedInsert, get_distance, mx3100, D_infinity]
  unfold compute_walkscore
  rw [h1, h2]
  show piecewise_linear_score defaultBps defaultYs 775
      < piecewise_linear_score defaultBps defaultYs 600
  rw [pwl_default_eq, pwl_default_eq]
  norm_num

/-- C2 witness: the amended monotonicity applied to a concrete bounded
configuration (one plain category, one materialized distance of 500 m). -/
theorem claimC2_witness :
    compute_walkscore scPlain500 0 emptyAlloc
      ≤ compute_walkscore scPlain500 0 (allocAdd emptyAlloc "grocery" 5) := by
  refine claimC2 scPlain500 0 emptyAlloc (allocAdd emptyAlloc "grocery" 5)
    ?_ ?_ ?_ ?_ rfl rfl ?_
  · intro u v q h
    unfold scPlain500 mx500 at h
    dsimp only at h
    split_ifs at h with hc
    all_goals first
    | (injection h with h
       rw [← h]
       norm_num [D_infinity])
    | cases h
  · intro pw hpw
    rcases List.mem_singleton.mp hpw with rfl
    norm_num
  · intro dw hdw
    simp [scPlain500] at hdw
  · intro dw hdw
    simp [scPlain500] at hdw
  · intro t
    exact Finset.empty_subset _

/-- C3 (amended).  Locality of the neighborhood radius holds for plain
categories: when no depth category is configured, a candidate `j` whose
looked-up distance from resident `u` exceeds 3000 m (so `u` is outside the
precomputed `N_j`) cannot change `u`'s WalkScore.  The restriction to plain
categories is what the counterexample forces: the depth branch uses raw
materialized distances with no `D∞` cap, so a depth amenity 3000+ m away can
still change the score. -/
theorem claimC3 (sc : Scorer) (S : Alloc) (t : String) (j u : NodeId)
    (hd : sc.depth_weights = [])
    (hfar : 3000 < get_distance sc.matrix u j) :
    compute_walkscore sc u (allocAdd S t j) = compute_walkscore sc u S :=
  compute_walkscore_insert_far hd S t
    (le_trans (by norm_num [D_infinity]) (le_of_lt hfar))

/-- C3 counterexample: with a depth category, a candidate at materialized
distance `3150 > 3000` (outside `N_j`) changes the resident's score, refuting
the claim as stated. -/
theorem claimC3_cex :
    3000 < get_distance scDepth3150.matrix 0 9
    ∧ compute_walkscore scDepth3150 0 (allocAdd emptyAlloc "restaurant" 9)
      ≠ compute_walkscore scDepth3150 0 emptyAlloc := by
  constructor
  · norm_num [scDepth3150, mx3150, get_distance]
  · have h1 : compute_weighted_distance scDepth3150 0 emptyAlloc = 480 := by
      norm_num [compute_weighted_distance, scDepth3150, emptyAlloc, depthContribution,
        depthRankSum, D_infinity]
    have hA : allocAdd emptyAlloc "restaurant" 9 "restaurant" = {9} := by
      simp [allocAdd, emptyAlloc]
    have h2 : compute_weighted_distance scDepth3150 0
        (allocAdd emptyAlloc "restaurant" 9) = 630 := by
      norm_num [compute_weighted_distance, scDepth3150, hA, depthContribution,
        depthRankSum, locDistances, Finset.sort_singleton, List.insertionSort,
        List.orderedInsert, get_distance, mx3150, D_infinity]
    unfold compute_walkscore
    rw [h1, h2]
    show piecewise_linear_score defaultBps defaultYs 630
        ≠ piecewise_linear_score defaultBps defaultYs 480
    rw [pwl_default_eq, pwl_default_eq]
    norm_num

/-- C3 witness: plain-only locality at a concrete input — candidate 9 is
materialized 3200 m from node 0 and adding it leaves the score unchanged. -/
theorem claimC3_witness :
    3000 < get_distance scPlain3200.matrix 0 9
    ∧ compute_walkscore scPlain3200 0 (allocAdd emptyAlloc "grocery" 9)
      = compute_walkscore scPlain3200 0 emptyAlloc := by
  have hfar : 3000 < get_distance scPlain3200.matrix 0 9 := by
    norm_num [scPlain3200, mx3200, get_distance]
  exact ⟨hfar, claimC3 scPlain3200 emptyAlloc "grocery" 9 0 rfl hfar⟩

/-- C1 (amended).  The cached, spatially-restricted objective delta equals
the full-recompute difference whenever the weighting has no depth categories
and every building's snapped node lies in `graph.N` (as the data model
guarantees).  Without the depth restriction the equality fails on the code:
a depth category lets a resident outside the 3000 m neighborhood `N_j` change
score, which the restricted sum misses (see the counterexample). -/
theorem claimC1 (g : Greedy) (S : Alloc) (t : String) (j : NodeId)
    (hd : g.sc.depth_weights = [])
    (hN : ∀ b ∈ g.residential_buildings, b.2 ∈ g.N) :
    calculate_objective_increase g S t j
      = calculate_objective g (allocAdd S t j) - calculate_objective g S := by
  have hzero : ∀ b ∈ g.residential_buildings, (b.2 ∈ nearby_residentials g j) = false →
      compute_walkscore g.sc b.2 (allocAdd S t j) - compute_walkscore g.sc b.2 S = 0 := by
    intro b hb hnot
    have hmem : b.2 ∉ nearby_residentials g j := by
      simpa using hnot
    have hfar : ¬get_distance g.sc.matrix b.2 j ≤ 3000 := by
      intro hle
      exact hmem (List.mem_filter.mpr ⟨hN b hb, by simpa using hle⟩)
    rw [compute_walkscore_insert_far hd S t
      (le_trans (by norm_num [D_infinity]) (le_of_lt (not_le.mp hfar)))]
    ring
  unfold calculate_objective_increase calculate_objective
  cases hbl : g.residential_buildings.isEmpty with
  | true =>
    have hnil : g.residential_buildings = [] := List.isEmpty_iff.mp hbl
    rw [hnil]
    simp
  | false =>
    have hnil : g.residential_buildings ≠ [] := by
      intro hc
      rw [hc] at hbl
      cases hbl
    have hlen : 0 < g.residential_buildings.length := List.length_pos.mpr hnil
    have hsum : ((g.residential_buildings.filter
          (fun b => b.2 ∈ nearby_residentials g j)).map
          (fun b => compute_walkscore g.sc b.2 (allocAdd S t j)
            - compute_walkscore g.sc b.2 S)).sum
        = (g.residential_buildings.map (fun b => compute_walkscore g.sc b.2 (allocAdd S t j))).sum
          - (g.residential_buildings.map (fun b => compute_walkscore g.sc b.2 S)).sum := by
      rw [sum_filter_of_zero _ _ _ (fun b hb hnot => hzero b hb (by simpa using hnot)),
        sum_map_sub]
    by_cases haff : (nearby_residentials g j).isEmpty
    · rw [if_pos haff]
      have hall : ∀ b ∈ g.residential_buildings,
          compute_walkscore g.sc b.2 (allocAdd S t j) - compute_walkscore g.sc b.2 S = 0 := by
        intro b hb
        refine hzero b hb ?_
        simp only [List.isEmpty_iff] at haff
        simp [haff]
      have : (g.residential_buildings.map (fun b => compute_walkscore g.sc b.2 (allocAdd S t j))).sum
          - (g.residential_buildings.map (fun b => compute_walkscore g.sc b.2 S)).sum = 0 := by
        rw [← sum_map_sub]
        exact List.sum_eq_zero (fun x hx => by
          rcases List.mem_map.mp hx with ⟨b, hb, rfl⟩
          exact hall b hb)
      rw [if_neg (by simpa using hbl), if_neg (by simpa using hbl)]
      rw [div_sub_div_same, this, zero_div]
    · rw [if_neg haff, if_pos hlen, if_neg (by simpa using hbl), if_neg (by simpa using hbl),
        hsum, div_sub_div_same]

/-- C1 counterexample: with a depth category, allocating candidate 9
(3100 m from the only resident, hence outside `N_j`) yields a cached delta of
`0` while the true objective change is negative — the two differ. -/
theorem claimC1_cex :
    calculate_objective_increase gDepthFar emptyAlloc "restaurant" 9
      ≠ calculate_objective gDepthFar (allocAdd emptyAlloc "restaurant" 9)
        - calculate_objective gDepthFar emptyAlloc := by
  have hinc : calculate_objective_increase gDepthFar emptyAlloc "restaurant" 9 = 0 := by
    have hnear : nearby_residentials gDepthFar 9 = [] := by
      norm_num [nearby_residentials, gDepthFar, scDepth3100, mx3100, get_distance,
        List.filter]
    unfold calculate_objective_increase
    rw [hnear]
    simp
  have h1 : compute_weighted_distance scDepth3100 0 emptyAlloc = 600 := by
    norm_num [compute_weighted_distance, scDepth3100, emptyAlloc, depthContribution,
      depthRankSum, D_infinity]
  have hA : allocAdd emptyAlloc "restaurant" 9 "restaurant" = {9} := by
    simp [allocAdd, emptyAlloc]
  have h2 : compute_weighted_distance scDepth3100 0 (allocAdd emptyAlloc "restaurant" 9)
      = 775 := by
    norm_num [compute_weighted_distance, scDepth3100, hA, depthContribution,
      depthRankSum, locDistances, Finset.sort_singleton, List.insertionSort,
      List.orderedInsert, get_distance, mx3100, D_infinity]
  have hobj : calculate_objective gDepthFar (allocAdd emptyAlloc "restaurant" 9)
      - calculate_objective gDepthFar emptyAlloc ≠ 0 := by
    unfold calculate_objective gDepthFar
    dsimp only
    rw [if_neg (by simp), if_neg (by simp)]
    unfold compute_walkscore
    simp only [List.map_cons, List.map_nil, List.sum_cons, List.sum_nil]
    rw [h1, h2]
    have hbb : scDepth3100.breakpoints = defaultBps := rfl
    have hyy : scDepth3100.scores = defaultYs := rfl
    rw [hbb, hyy, pwl_default_eq, pwl_default_eq]
    norm_num
  rw [hinc]
  exact fun hc => hobj hc.symm

/-- C1 witness: the amended equality at a concrete plain-only input (one
building 500 m from candidate 5). -/
theorem claimC1_witness :
    calculate_objective_increase gPlainNear emptyAlloc "grocery" 5
      = calculate_objective gPlainNear (allocAdd emptyAlloc "grocery" 5)
        - calculate_objective gPlainNear emptyAlloc :=
  claimC1 gPlainNear emptyAlloc "grocery" 5 rfl (by
    intro b hb
    rcases List.mem_singleton.mp hb with rfl
    simp [gPlainNear])

/-- C5 (amended).  `compute_weighted_distance` equals the spec's reference
formula (plain: `w_c · min` distance, `w_c · D∞` on empty; depth:
`w_c · Σ w_p · d_p` over ascending distances padded with `D∞`; no
normalization) — provided the materialized distances respect the §4.1 fabric
contract `distance ≤ D∞`.  The proviso is what the counterexample forces: the
code initializes the plain minimum with `D_infinity`, so a plain category
whose nearest materialized amenity is farther than `D∞` contributes
`w_c · D∞` where the formula says `w_c · min`. -/
theorem claimC5 (sc : Scorer) (r : NodeId) (S : Alloc)
    (hm : ∀ u v q, sc.matrix u v = some q → q ≤ D_infinity) :
    compute_weighted_distance sc r S = spec_weighted_distance sc r S := by
  unfold compute_weighted_distance spec_weighted_distance
  congr 1
  · refine congrArg List.sum (List.map_congr_left (fun pw _ => ?_))
    unfold plainContribution
    by_cases hA : (sc.L pw.1 ∪ S pw.1).Nonempty
    · rw [if_pos hA, dif_pos hA,
        plain_fold_eq_inf r hA (fun x hx => mem_locDistances_le hm r _ hx)]
    · rw [if_neg hA, dif_neg hA]
  · refine congrArg List.sum (List.map_congr_left (fun dw _ => ?_))
    unfold depthContribution
    by_cases hA : (sc.L dw.1 ∪ S dw.1).Nonempty
    · rw [if_pos hA]
    · rw [if_neg hA]
      have hAe : sc.L dw.1 ∪ S dw.1 = ∅ := Finset.not_nonempty_iff_eq_empty.mp hA
      rw [hAe]
      have : locDistances sc.matrix r ∅ = [] := by simp [locDistances]
      rw [this]
      simp only [List.insertionSort]
      rw [depthRankSum_nil]

/-- C5 counterexample: a plain category whose single existing amenity is
materialized at 5000 m.  The code clamps the minimum at `D∞ = 2400`; the
reference formula yields 5000. -/
theorem claimC5_cex :
    compute_weighted_distance scFar 0 emptyAlloc
      ≠ spec_weighted_distance scFar 0 emptyAlloc := by
  have hL : scFar.L "grocery" ∪ emptyAlloc "grocery" = {5} := by
    simp [scFar, emptyAlloc]
  have h1 : compute_weighted_distance scFar 0 emptyAlloc = 2400 := by
    norm_num [compute_weighted_distance, scFar, emptyAlloc, Finset.union_empty,
      plainContribution, locDistances, Finset.sort_singleton, get_distance, mx5000,
      D_infinity]
  have h2 : spec_weighted_distance scFar 0 emptyAlloc = 5000 := by
    have hne : ({5} : Finset NodeId).Nonempty := ⟨5, by simp⟩
    norm_num [spec_weighted_distance, scFar, emptyAlloc, Finset.union_empty, hne,
      get_distance, mx5000]
  rw [h1, h2]
  norm_num

/-- C5 witness: the amended equality on a concrete bounded configuration
with one plain and one depth category. -/
theorem claimC5_witness :
    compute_weighted_distance scBoth 0 emptyAlloc
      = spec_weighted_distance scBoth 0 emptyAlloc := by
  refine claimC5 scBoth 0 emptyAlloc ?_
  intro u v q h
  unfold scBoth at h
  dsimp only at h
  split_ifs at h with hc1 hc2
  all_goals first
  | (injection h with h
     rw [← h]
     norm_num [D_infinity])
  | cases h

/-- C9 (code bug).  A depth category whose `amenity_types.weight` row is
missing does not raise a configuration error: `compute_weighted_distance`
silently substitutes the default `0.6` (walkscore.py line 157) and produces a
weighted distance — here `0.6 · 1000 = 600` for a restaurant 1000 m away. -/
theorem claimC9 :
    scNoWeight.type_weight "restaurant" = none
    ∧ compute_weighted_distance scNoWeight 0 emptyAlloc = 600 := by
  constructor
  · rfl
  · have hL : scNoWeight.L "restaurant" ∪ emptyAlloc "restaurant" = {7} := by
      simp [scNoWeight, emptyAlloc]
    norm_num [compute_weighted_distance, scNoWeight, emptyAlloc, Finset.union_empty,
      depthContribution, depthRankSum, locDistances, Finset.sort_singleton,
      List.insertionSort, List.orderedInsert, get_distance, D_infinity]

/-- C10 (confirmed).  With an empty residential-building list both
objective computations are total and return `0.0`; no division by zero
occurs. -/
theorem claimC10 (sc : Scorer) (N : List NodeId) (S : Alloc) (t : String)
    (j : NodeId) :
    calculate_objective ⟨sc, [], N⟩ S = 0
    ∧ calculate_objective_increase ⟨sc, [], N⟩ S t j = 0 := by
  constructor
  · rfl
  · unfold calculate_objective_increase
    dsimp only
    by_cases haff : (nearby_residentials ⟨sc, [], N⟩ j).isEmpty
    · rw [if_pos haff]
    · rw [if_neg haff]
      simp

/-- C4 (code bug).  `_compute_sequential` stores the raw Dijkstra length
with no cutoff at `D_infinity`: on the path graph `1 —1600— 2 —1600— 3` the
pair `(1, 3)` is materialized at 3200 m and `get_distance` returns
`3200 > D∞ = 2400`, refuting "`distance(u, v) ≤ D∞` always". -/
theorem claimC4 :
    get_distance
        (compute_sequential (fun u v => dijkstra [(1, 2, 1600), (2, 3, 1600)] u 3 v)
          (fun v => v = 1 ∨ v = 2 ∨ v = 3) [1] [3]) 1 3 = 3200
    ∧ D_infinity
      < get_distance
          (compute_sequential (fun u v => dijkstra [(1, 2, 1600), (2, 3, 1600)] u 3 v)
            (fun v => v = 1 ∨ v = 2 ∨ v = 3) [1] [3]) 1 3 := by
  have h : get_distance
      (compute_sequential (fun u v => dijkstra [(1, 2, 1600), (2, 3, 1600)] u 3 v)
        (fun v => v = 1 ∨ v = 2 ∨ v = 3) [1] [3]) 1 3 = 3200 := by
    norm_num [get_distance, compute_sequential, dijkstra, relaxOnce, alookup, D_infinity,
      Function.iterate_succ, Function.iterate_zero, Function.comp, List.foldl, List.filter]
  exact ⟨h, by rw [h]; norm_num [D_infinity]⟩

/-- C7 (confirmed).  In every intermediate state of the greedy loop (every
fuel prefix, hence also the final output): each category holds at most `k`
allocations, categories outside the run stay empty, and each candidate's total
allocation count across categories stays within its capacity.  Hypotheses:
distinct category names (they are primary keys of `amenity_types`) and
capacities at least 1 (§3's data model). -/
theorem claimC7 (g : Greedy) (types : List String) (M : List NodeId) (k : ℕ)
    (cap0 : NodeId → ℤ) (fuel : ℕ) (hnd : types.Nodup)
    (hcap : ∀ j, 1 ≤ cap0 j) :
    (∀ t, ((greedyLoop g types M k fuel (initState cap0)).S t).card ≤ k)
    ∧ (∀ j, (countAlloc types (greedyLoop g types M k fuel (initState cap0)).S j : ℤ)
        ≤ cap0 j)
    ∧ (∀ t, t ∉ types → (greedyLoop g types M k fuel (initState cap0)).S t = ∅) := by
  obtain ⟨hcard, hoff, hcaps⟩ := @greedyLoop_inv g types M k cap0 hnd fuel
    (initState cap0) (@initState_inv types k cap0 hcap)
  refine ⟨fun t => ?_, fun j => ?_, hoff⟩
  · by_cases ht : t ∈ types
    · exact le_trans (hcard t ht).1 (hcard t ht).2
    · rw [hoff t ht]
      simp
  · have := hcaps j
    omega

/-- C7 witness: the invariants applied to the concrete two-candidate run
`gTie` with `k = 1` and unit capacities, after two loop iterations. -/
theorem claimC7_witness :
    (∀ t, ((greedyLoop gTie ["grocery"] [8, 1] 1 2 (initState fun _ => 1)).S t).card ≤ 1)
    ∧ (∀ j, (countAlloc ["grocery"]
        (greedyLoop gTie ["grocery"] [8, 1] 1 2 (initState fun _ => 1)).S j : ℤ) ≤ 1)
    ∧ (∀ t, t ∉ ["grocery"] →
        (greedyLoop gTie ["grocery"] [8, 1] 1 2 (initState fun _ => 1)).S t = ∅) :=
  claimC7 gTie ["grocery"] [8, 1] 1 (fun _ => 1) 2 (by decide) (fun _ => le_refl 1)

/-- C6 (amended).  In each greedy iteration the scanned pair list is
exactly `{(t, j) : t ∈ amenity_types, n_t < k, j available with capacity}` in
scan order (categories in `amenity_types` order, candidates in the enumeration
order of the capacity dict), and the strict-`>` scan selects a pair attaining
the maximum delta; among ties it selects the first in scan order.  That
pair has the lowest category index, but is *not* in general the lowest
candidate id: the candidate order is the Python set-iteration order of
`graph.M`, which the counterexample exploits. -/
theorem claimC6 (types : List String) (k : ℕ) (n : String → ℕ) (M : List NodeId)
    (caps : NodeId → ℤ) (f : String × NodeId → ℚ) (p : String × NodeId) (v : ℚ)
    (h : scanBest f (candidatePairs types k n (availableCandidates M caps))
      = some (p, v)) :
    v = f p
    ∧ (∀ t j, (t, j) ∈ candidatePairs types k n (availableCandidates M caps)
        ↔ t ∈ types ∧ n t < k ∧ j ∈ M ∧ 0 < caps j)
    ∧ (∀ q ∈ candidatePairs types k n (availableCandidates M caps), f q ≤ v)
    ∧ ∃ l₁ l₂, candidatePairs types k n (availableCandidates M caps) = l₁ ++ p :: l₂
        ∧ ∀ q ∈ l₁, f q < v := by
  obtain ⟨hv, hmax, l₁, l₂, hsplit, hfirst⟩ := scanBest_spec h
  refine ⟨hv, fun t j => ?_, hmax, l₁, l₂, hsplit, hfirst⟩
  rw [mem_candidatePairs]
  unfold availableCandidates
  simp only [List.mem_filter, decide_eq_true_eq]

/-- C6 counterexample: candidates 8 and 1 tie exactly (identical distance
profiles), yet the allocator commits candidate 8 — the first in the
enumeration order `[8, 1]` of the candidate set (CPython iterates the set
`{8, 1}` in this order) — not the lowest id 1. -/
theorem claimC6_cex :
    calculate_objective_increase gTie emptyAlloc "grocery" 8
      = calculate_objective_increase gTie emptyAlloc "grocery" 1
    ∧ (optimize gTie ["grocery"] [8, 1] 1 (fun _ => 1) 1) "grocery" = {8} := by
  have h8 : nearby_residentials gTie 8 = [0] := by
    norm_num [nearby_residentials, gTie, mxTie, get_distance, List.filter]
  have h1 : nearby_residentials gTie 1 = [0] := by
    norm_num [nearby_residentials, gTie, mxTie, get_distance, List.filter]
  have e8 : allocAdd emptyAlloc "grocery" 8 "grocery" = {8} := by
    simp [allocAdd, emptyAlloc]
  have e1 : allocAdd emptyAlloc "grocery" 1 "grocery" = {1} := by
    simp [allocAdd, emptyAlloc]
  have hw8 : compute_walkscore gTie.sc 0 (allocAdd emptyAlloc "grocery" 8) = 650 / 7 := by
    have hcw : compute_weighted_distance gTie.sc 0 (allocAdd emptyAlloc "grocery" 8)
        = 500 := by
      norm_num [compute_weighted_distance, gTie, e8, plainContribution, locDistances,
        Finset.sort_singleton, get_distance, mxTie, D_infinity]
    unfold compute_walkscore
    rw [hcw]
    show piecewise_linear_score defaultBps defaultYs 500 = 650 / 7
    rw [pwl_default_eq]
    norm_num
  have hw1 : compute_walkscore gTie.sc 0 (allocAdd emptyAlloc "grocery" 1) = 650 / 7 := by
    have hcw : compute_weighted_distance gTie.sc 0 (allocAdd emptyAlloc "grocery" 1)
        = 500 := by
      norm_num [compute_weighted_distance, gTie, e1, plainContribution, locDistances,
        Finset.sort_singleton, get_distance, mxTie, D_infinity]
    unfold compute_walkscore
    rw [hcw]
    show piecewise_linear_score defaultBps defaultYs 500 = 650 / 7
    rw [pwl_default_eq]
    norm_num
  have hw0 : compute_walkscore gTie.sc 0 emptyAlloc = 0 := by
    have hcw : compute_weighted_distance gTie.sc 0 emptyAlloc = 2400 := by
      norm_num [compute_weighted_distance, gTie, emptyAlloc, plainContribution,
        D_infinity]
    unfold compute_walkscore
    rw [hcw]
    show piecewise_linear_score defaultBps defaultYs 2400 = 0
    rw [pwl_default_eq]
    norm_num
  have hb : gTie.residential_buildings = [(100, 0)] := rfl
  have hinc8 : calculate_objective_increase gTie emptyAlloc "grocery" 8 = 650 / 7 := by
    unfold calculate_objective_increase
    rw [h8, hb]
    norm_num [hw8, hw0, List.filter]
  have hinc1 : calculate_objective_increase gTie emptyAlloc "grocery" 1 = 650 / 7 := by
    unfold calculate_objective_increase
    rw [h1, hb]
    norm_num [hw1, hw0, List.filter]
  refine ⟨by rw [hinc8, hinc1], ?_⟩
  have hstep : greedyStep gTie ["grocery"] [8, 1] 1 (initState fun _ => 1)
      = some { S := allocAdd emptyAlloc "grocery" 8,
               n_allocated := fun t => if t = "grocery" then 1 else 0,
               caps := fun j => if j = 8 then 0 else 1 } := by
    unfold greedyStep initState availableCandidates candidatePairs
    norm_num [scanBest, scanBestGo, hinc8, hinc1, List.filter, List.flatMap]
  unfold optimize greedyLoop
  rw [hstep]
  unfold greedyLoop
  simp [allocAdd, emptyAlloc]

/-- C6 witness: the amended selection rule applied to a concrete scan —
the pair `("a", 7)` is the first maximizer of the scanned list. -/
theorem claimC6_witness :
    ∃ l₁ l₂, candidatePairs ["a"] 1 (fun _ => 0) (availableCandidates [3, 7] (fun _ => 1))
        = l₁ ++ ("a", 7) :: l₂
      ∧ ∀ q ∈ l₁, (fun p : String × NodeId => if p.2 = 7 then (7 : ℚ) else 3) q < 7 := by
  have h : scanBest (fun p : String × NodeId => if p.2 = 7 then (7 : ℚ) else 3)
      (candidatePairs ["a"] 1 (fun _ => 0) (availableCandidates [3, 7] (fun _ => 1)))
      = some (("a", 7), 7) := by
    norm_num [scanBest, scanBestGo, candidatePairs, availableCandidates, List.filter,
      List.flatMap]
  obtain ⟨-, -, -, l₁, l₂, hsplit, hfirst⟩ :=
    claimC6 ["a"] 1 (fun _ => 0) [3, 7] (fun _ => 1) _ _ _ h
  exact ⟨l₁, l₂, hsplit, hfirst⟩

theorem chain_lt_getD {l : List ℚ} (hc : List.Chain' (· < ·) l) {i j : ℕ}
    (hij : i < j) (hj : j < l.length) : l.getD i 0 < l.getD j 0 := by
  have hp := List.chain'_iff_pairwise.mp hc
  have hi : i < l.length := lt_trans hij hj
  rw [List.getD_eq_getElem?_getD, List.getElem?_eq_getElem hi,
    List.getD_eq_getElem?_getD, List.getElem?_eq_getElem hj]
  exact List.pairwise_iff_getElem.mp hp i j hi hj hij

/-- In-segment interpolated value stays inside `[0, 100]` when the endpoint
values do, so the code's clamp is the identity. -/
theorem interp_clamp_eq {x1 x2 y1 y2 d : ℚ} (hx : x1 < x2) (hd1 : x1 ≤ d)
    (hd2 : d ≤ x2) (hy1 : 0 ≤ y1 ∧ y1 ≤ 100) (hy2 : 0 ≤ y2 ∧ y2 ≤ 100) :
    max 0 (min 100 (y1 + (y2 - y1) * (d - x1) / (x2 - x1)))
      = y1 + (y2 - y1) * (d - x1) / (x2 - x1) := by
  have hpos : 0 < x2 - x1 := by linarith
  have hrw : y1 + (y2 - y1) * (d - x1) / (x2 - x1)
      = (y1 * (x2 - d) + y2 * (d - x1)) / (x2 - x1) := by
    field_simp
    ring
  have h0 : 0 ≤ y1 + (y2 - y1) * (d - x1) / (x2 - x1) := by
    rw [hrw]
    refine div_nonneg ?_ (le_of_lt hpos)
    have t1 : 0 ≤ y1 * (x2 - d) := mul_nonneg hy1.1 (by linarith)
    have t2 : 0 ≤ y2 * (d - x1) := mul_nonneg hy2.1 (by linarith)
    linarith
  have h100 : y1 + (y2 - y1) * (d - x1) / (x2 - x1) ≤ 100 := by
    rw [hrw, div_le_iff hpos]
    have t1 : y1 * (x2 - d) ≤ 100 * (x2 - d) :=
      mul_le_mul_of_nonneg_right hy1.2 (by linarith)
    have t2 : y2 * (d - x1) ≤ 100 * (d - x1) :=
      mul_le_mul_of_nonneg_right hy2.2 (by linarith)
    linarith
  rw [min_eq_right h100, max_eq_right h0]

/-- The segment scan returns the exact interpolation of the enclosing segment
for strictly increasing breakpoints with values in `[0, 100]`. -/
theorem pwlSegments_eq_interp :
    ∀ (bps ys : List ℚ) (i : ℕ) (d : ℚ),
    bps.length = ys.length → List.Chain' (· < ·) bps →
    (∀ y ∈ ys, 0 ≤ y ∧ y ≤ 100) →
    i + 1 < bps.length → bps.getD i 0 ≤ d → d ≤ bps.getD (i + 1) 0 →
    pwlSegments bps ys d
      = some (ys.getD i 0 + (ys.getD (i + 1) 0 - ys.getD i 0) * (d - bps.getD i 0)
          / (bps.getD (i + 1) 0 - bps.getD i 0))
  | [], _, _, _ => by
    intro _ _ _ hi _ _
    simp only [List.length_nil] at hi
    omega
  | [_], _, _, _ => by
    intro _ _ _ hi _ _
    simp only [List.length_cons, List.length_nil] at hi
    omega
  | _ :: _ :: _, [], _, _ => by
    intro hlen _ _ _ _ _
    simp only [List.length_cons, List.length_nil] at hlen
    omega
  | _ :: _ :: _, [_], _, _ => by
    intro hlen _ _ _ _ _
    simp only [List.length_cons, List.length_nil] at hlen
    omega
  | x1 :: x2 :: xs, y1 :: y2 :: yss, i, d => by
    intro hlen hchain hy hi hd1 hd2
    have hx12 : x1 < x2 := (List.chain'_cons.mp hchain).1
    rw [pwlSegments]
    match i with
    | 0 =>
      rw [if_pos ⟨by simpa using hd1, by simpa using hd2⟩, if_neg (ne_of_gt hx12)]
      simp only [List.getD_cons_zero, List.getD_cons_succ]
      rw [interp_clamp_eq hx12 (by simpa using hd1) (by simpa using hd2)
        (hy y1 (List.mem_cons_self _ _)) (hy y2 (List.mem_cons_of_mem _ (List.mem_cons_self _ _)))]
    | p + 1 =>
      by_cases hc : x1 ≤ d ∧ d ≤ x2
      · match p with
        | 0 =>
          have hd : d = x2 := le_antisymm hc.2 (by simpa using hd1)
          rw [if_pos hc, if_neg (ne_of_gt hx12)]
          simp only [List.getD_cons_zero, List.getD_cons_succ]
          rw [interp_clamp_eq hx12 hc.1 hc.2
            (hy y1 (List.mem_cons_self _ _))
            (hy y2 (List.mem_cons_of_mem _ (List.mem_cons_self _ _)))]
          rw [hd, sub_self x2, mul_zero, zero_div, add_zero, mul_div_assoc,
            div_self (show x2 - x1 ≠ 0 from by linarith), mul_one]
          ring_nf
        | q + 1 =>
          exfalso
          have hgt : x2 < (x1 :: x2 :: xs).getD (q + 2) 0 :=
            chain_lt_getD hchain (show 1 < q + 2 by omega) (by omega)
          have : (x1 :: x2 :: xs).getD (q + 2) 0 ≤ d := hd1
          linarith [hc.2]
      · rw [if_neg hc]
        have hlen2 : (x2 :: xs).length = (y2 :: yss).length := by
          simpa using hlen
        have := pwlSegments_eq_interp (x2 :: xs) (y2 :: yss) p d hlen2
          (List.chain'_cons.mp hchain).2
          (fun y hyy => hy y (List.mem_cons_of_mem _ hyy))
          (by simpa using hi) (by simpa using hd1) (by simpa using hd2)
        rw [this]
        simp [List.getD_cons_succ]

/-- Any value between the first and last of a strictly increasing list of at
least two breakpoints lies in some segment `[x_i, x_{i+1}]`. -/
theorem exists_enclosing_seg :
    ∀ (bps : List ℚ) (d : ℚ), List.Chain' (· < ·) bps → 2 ≤ bps.length →
    bps.getD 0 0 ≤ d → d ≤ bps.getD (bps.length - 1) 0 →
    ∃ i, i + 1 < bps.length ∧ bps.getD i 0 ≤ d ∧ d ≤ bps.getD (i + 1) 0
  | [], _ => by
    intro _ h2 _ _
    simp only [List.length_nil] at h2
    omega
  | [_], _ => by
    intro _ h2 _ _
    simp only [List.length_cons, List.length_nil] at h2
    omega
  | [x1, x2], d => by
    intro _ _ hd0 hdl
    refine ⟨0, by simp, by simpa using hd0, ?_⟩
    simpa using hdl
  | x1 :: x2 :: x3 :: xs, d => by
    intro hchain h2 hd0 hdl
    by_cases hc : d ≤ x2
    · exact ⟨0, by simp only [List.length_cons]; omega, by simpa using hd0,
        by simpa using hc⟩
    · push_neg at hc
      have hidx : (x1 :: x2 :: x3 :: xs).length - 1
          = ((x2 :: x3 :: xs).length - 1) + 1 := by
        simp only [List.length_cons]
        omega
      rw [hidx, List.getD_cons_succ] at hdl
      obtain ⟨i, hi, h1, h2'⟩ := exists_enclosing_seg (x2 :: x3 :: xs) d
        (List.chain'_cons.mp hchain).2 (by simp only [List.length_cons]; omega)
        (by simpa using le_of_lt hc) hdl
      exact ⟨i + 1, by simp only [List.length_cons] at hi ⊢; omega,
        by simpa [List.getD_cons_succ] using h1,
        by simpa [List.getD_cons_succ] using h2'⟩

/-- C8 (amended).  For configurations with at least two strictly
increasing breakpoints starting at 0 and values within `[0, 100]`,
`piecewise_linear_score` clamps the distance to the outer breakpoints and
returns the linear interpolation of the enclosing segment.  The first conjunct
gives the interpolation formula inside each segment; the second covers every
input `L` whatsoever: the clamped value `max(x_0, min(L, x_last))` lies in
some segment and the score of `L` equals that segment's interpolation at the
clamped value (so in particular `Score(L) = y_last` for `L > x_last` and
`Score(L) = y_0` for `L < x_0`); the third gives `Score(x_i) = y_i` at every
breakpoint.  The restrictions are what the counterexample forces: the code
clamps below to the constant `0` (not to `breakpoints[0]`) and falls through
to `scores[-1]` when the clamped distance precedes the first breakpoint, so a
non-decreasing configuration not starting at 0 violates the claim (and the
inner `[0,100]` clamp would distort values outside that range). -/
theorem claimC8 (bps ys : List ℚ) (hlen : bps.length = ys.length)
    (hlen2 : 2 ≤ bps.length) (hfirst : bps.getD 0 0 = 0)
    (hchain : List.Chain' (· < ·) bps) (hy : ∀ y ∈ ys, 0 ≤ y ∧ y ≤ 100) :
    (∀ i d, i + 1 < bps.length → bps.getD i 0 ≤ d → d ≤ bps.getD (i + 1) 0 →
      piecewise_linear_score bps ys d
        = ys.getD i 0 + (ys.getD (i + 1) 0 - ys.getD i 0) * (d - bps.getD i 0)
            / (bps.getD (i + 1) 0 - bps.getD i 0))
    ∧ (∀ L : ℚ, ∃ i, i + 1 < bps.length ∧
        bps.getD i 0 ≤ max (bps.getD 0 0) (min L (bps.getLastD 0)) ∧
        max (bps.getD 0 0) (min L (bps.getLastD 0)) ≤ bps.getD (i + 1) 0 ∧
        piecewise_linear_score bps ys L
          = ys.getD i 0 + (ys.getD (i + 1) 0 - ys.getD i 0)
              * (max (bps.getD 0 0) (min L (bps.getLastD 0)) - bps.getD i 0)
              / (bps.getD (i + 1) 0 - bps.getD i 0))
    ∧ (∀ i, i < bps.length → piecewise_linear_score bps ys (bps.getD i 0) = ys.getD i 0) := by
  have hne : bps ≠ [] := by
    intro hc
    rw [hc] at hlen2
    simp at hlen2
  have hlast : bps.getLastD 0 = bps.getD (bps.length - 1) 0 := by
    rw [List.getLastD_eq_getLast?, List.getLast?_eq_getElem?, List.getD_eq_getElem?_getD]
  have hmono : ∀ {a b : ℕ}, a ≤ b → b < bps.length →
      bps.getD a 0 ≤ bps.getD b 0 := by
    intro a b hab hb
    rcases lt_or_eq_of_le hab with h | h
    · exact le_of_lt (chain_lt_getD hchain h hb)
    · rw [h]
  have hseg : ∀ i d, i + 1 < bps.length → bps.getD i 0 ≤ d → d ≤ bps.getD (i + 1) 0 →
      piecewise_linear_score bps ys d
        = ys.getD i 0 + (ys.getD (i + 1) 0 - ys.getD i 0) * (d - bps.getD i 0)
            / (bps.getD (i + 1) 0 - bps.getD i 0) := by
    intro i d hi hd1 hd2
    have h00 : bps.getD 0 0 ≤ bps.getD i 0 := hmono (Nat.zero_le i) (by omega)
    rw [hfirst] at h00
    have hd0 : 0 ≤ d := le_trans h00 hd1
    have hdlast : d ≤ bps.getLastD 0 := by
      rw [hlast]
      exact le_trans hd2 (hmono (by omega) (by omega))
    unfold piecewise_linear_score
    rw [min_eq_left hdlast, max_eq_right hd0]
    dsimp only
    rw [pwlSegments_eq_interp bps ys i d hlen hchain hy hi hd1 hd2, Option.getD_some]
  have hc0 : (0:ℚ) ≤ bps.getLastD 0 := by
    have h := hmono (Nat.zero_le (bps.length - 1)) (by omega)
    rw [hfirst] at h
    rw [hlast]
    exact h
  have hclampAll : ∀ L : ℚ, ∃ i, i + 1 < bps.length ∧
      bps.getD i 0 ≤ max (bps.getD 0 0) (min L (bps.getLastD 0)) ∧
      max (bps.getD 0 0) (min L (bps.getLastD 0)) ≤ bps.getD (i + 1) 0 ∧
      piecewise_linear_score bps ys L
        = ys.getD i 0 + (ys.getD (i + 1) 0 - ys.getD i 0)
            * (max (bps.getD 0 0) (min L (bps.getLastD 0)) - bps.getD i 0)
            / (bps.getD (i + 1) 0 - bps.getD i 0) := by
    intro L
    rw [hfirst]
    have hd0 : (0:ℚ) ≤ max 0 (min L (bps.getLastD 0)) := le_max_left _ _
    have hdc : max 0 (min L (bps.getLastD 0)) ≤ bps.getLastD 0 :=
      max_le hc0 (min_le_right _ _)
    obtain ⟨i, hi, h1, h2'⟩ := exists_enclosing_seg bps (max 0 (min L (bps.getLastD 0)))
      hchain hlen2 (by rw [hfirst]; exact hd0) (by rw [← hlast]; exact hdc)
    refine ⟨i, hi, h1, h2', ?_⟩
    unfold piecewise_linear_score
    dsimp only
    rw [pwlSegments_eq_interp bps ys i _ hlen hchain hy hi h1 h2', Option.getD_some]
  refine ⟨hseg, hclampAll, fun i hi => ?_⟩
  rcases lt_or_eq_of_le (Nat.succ_le_of_lt hi) with hi1 | hi1
  · rw [hseg i (bps.getD i 0) hi1 (le_refl _) (hmono (Nat.le_succ i) hi1)]
    rw [sub_self, mul_zero, zero_div, add_zero]
  · have hi2 : i - 1 + 1 = i := by omega
    have hprev : i - 1 + 1 < bps.length := by omega
    have hlt : bps.getD (i - 1) 0 < bps.getD i 0 := by
      have h := chain_lt_getD (l := bps) hchain (show i - 1 < i - 1 + 1 by omega)
        (by omega)
      rwa [hi2] at h
    rw [hseg (i - 1) (bps.getD i 0) hprev (le_of_lt hlt)
      (by rw [hi2]), hi2, mul_div_assoc, div_self (sub_pos.mpr hlt).ne', mul_one]
    ring

/-- C8 counterexample: the non-decreasing configuration
`[100, 400] → [100, 0]` satisfies the claim's stated precondition, but at
`L = 50` the code clamps to `max(0, min(50, 400)) = 50 < 100`, finds no
enclosing segment and falls through to `scores[-1] = 0`, while clamping to the
outer breakpoint 100 would give `Score(100) = y_0 = 100`. -/
theorem claimC8_cex : piecewise_linear_score [100, 400] [100, 0] 50 ≠ 100 := by
  norm_num [piecewise_linear_score, pwlSegments, List.getLastD]

/-- C8 witness: the amended interpolation rule applied to the default
configuration at the mid-segment point 1100, at the out-of-range point 3000
(clamped to the last breakpoint 2400, yielding `y_last = 0`), and at the
breakpoint 1800. -/
theorem claimC8_witness :
    piecewise_linear_score [0, 400, 1800, 2400] [100, 100, 0, 0] 1100
      = 100 + (0 - 100) * (1100 - 400) / (1800 - 400)
    ∧ piecewise_linear_score [0, 400, 1800, 2400] [100, 100, 0, 0] 3000 = 0
    ∧ piecewise_linear_score [0, 400, 1800, 2400] [100, 100, 0, 0] 1800 = 0 := by
  have h := claimC8 [0, 400, 1800, 2400] [100, 100, 0, 0] (by norm_num) (by norm_num)
    (by norm_num) (by norm_num [List.chain'_cons]) (by
      intro y hy
      simp only [List.mem_cons, List.not_mem_nil, or_false] at hy
      rcases hy with rfl | rfl | rfl | rfl <;> norm_num)
  refine ⟨?_, ?_, ?_⟩
  · have h1 := h.1 1 1100 (by norm_num) (by norm_num) (by norm_num)
    simpa using h1
  · obtain ⟨i, hi, hd1, hd2, heq⟩ := h.2.1 3000
    have hi3 : i < 3 := by
      simp only [List.length_cons, List.length_nil] at hi
      omega
    interval_cases i
    · exfalso
      norm_num [List.getD_cons_zero, List.getD_cons_succ, List.getLastD,
        min_def, max_def] at hd2
    · exfalso
      norm_num [List.getD_cons_zero, List.getD_cons_succ, List.getLastD,
        min_def, max_def] at hd2
    · rw [heq]
      norm_num [List.getD_cons_zero, List.getD_cons_succ, List.getLastD,
        min_def, max_def]
  · have h2 := h.2.2 2 (by norm_num)
    simpa using h2

end Walkability
